import Mathlib

/-!
Shallow embedding of the `s` expression-language runtime
(`src/lexer.rs`, `src/parser.rs`, `src/expand.rs`, `src/interpreter.rs`).

Rust `Vec` stacks are mirrored as Lean lists with the top/innermost element
at the head; `HashMap` ribs and the macro table are mirrored as association
lists (the code never stores a duplicate key in one rib, and table lookup
returns the most recent insertion, matching `HashMap` overwrite semantics).
Fallible code (Rust `panic!` / failed `assert!`) is modelled with `Option` /
an explicit `Res.fatal` result; the interpreter in addition takes a fuel
parameter, `Res.timeout` marking fuel exhaustion.
-/

namespace Slang

/-- parser.rs: `enum Node`.  The `Macro` keyword leaf exists only in the
macro-enabled build variant of the parser (referenced by `expand.rs` as
`Node::Macro`); it is included here so that `expand.rs` can be embedded. -/
inductive Node : Type where
  | Program : List Node → Node
  | S : List Node → Node
  | Plus : Node
  | Fn : Node
  | Let : Node
  | Print : Node
  | Macro : Node
  | Ident : String → Node
  | LitNum : Nat → Node
  | LitStr : String → Node

/-- lexer.rs: `enum Token`. -/
inductive Token : Type where
  | Bra : Token
  | Ket : Token
  | Keyword : String → Token
  | Str : String → Token
  | Number : Nat → Token
  | Name : String → Token
deriving DecidableEq, Repr

/-- main.rs: `const KEYWORDS` (sorted; `binary_search` = membership test). -/
def KEYWORDS : List String := ["+", "fn", "let", "macro", "print"]

/-- lexer.rs `lex_keyword_or_name`: the characters that terminate a bare
name (whitespace, brackets, or a quote). -/
def stopChar (c : Char) : Bool :=
  c.isWhitespace || c = '(' || c = ')' || c = '"'

/-- The numeric value of a decimal digit character. -/
def digitVal (c : Char) : Nat := c.toNat - 48

/-- lexer.rs `lex_number` + `str::parse::<u32>`: decimal value of a digit
string (left fold, as positional decimal notation). -/
def parseDigits (l : List Char) : Nat :=
  l.foldl (fun a c => 10 * a + digitVal c) 0

/-- lexer.rs: `Lexer::lex` / `next_token`, structured with an explicit
fuel so the recursion is structural.  Each loop iteration consumes at
least one character, so running with fuel = length of the input (see
`lexLoop`) never hits the fuel-exhaustion case; `lexGo_fuel` below proves
the fuel irrelevant.  Returns `none` when a numeral does not fit in `u32`
(`result.parse().unwrap()` panics). -/
def lexGo : Nat → List Char → Option (List Token)
  | _, [] => some []
  | 0, _ :: _ => none
  | fuel + 1, c :: cs =>
    if c.isWhitespace then lexGo fuel cs
    else if c = '(' then (lexGo fuel cs).map (fun ts => Token.Bra :: ts)
    else if c = ')' then (lexGo fuel cs).map (fun ts => Token.Ket :: ts)
    else if c = '"' then
      -- lex_string: consume up to and including the closing quote; an
      -- unterminated string consumes the rest of the input.
      let txt := cs.takeWhile (fun d => d != '"')
      (lexGo fuel ((cs.dropWhile (fun d => d != '"')).drop 1)).map
        (fun ts => Token.Str (String.mk txt) :: ts)
    else if c.isDigit then
      -- lex_number starts at `c`, known to be a digit, so taking digits
      -- from `c :: cs` is taking `c` and then digits from `cs`.
      let txt := c :: cs.takeWhile Char.isDigit
      let v := parseDigits txt
      if v < 4294967296 then
        (lexGo fuel (cs.dropWhile Char.isDigit)).map
          (fun ts => Token.Number v :: ts)
      else none
    else
      -- lex_keyword_or_name starts at `c`, known not to be a stop char.
      let txt := c :: cs.takeWhile (fun d => !stopChar d)
      let s := String.mk txt
      (lexGo fuel (cs.dropWhile (fun d => !stopChar d))).map
        (fun ts =>
          (if KEYWORDS.contains s then Token.Keyword s else Token.Name s) :: ts)

/-- lexer.rs: the full tokenizing loop on a character list. -/
def lexLoop (cs : List Char) : Option (List Token) := lexGo cs.length cs

/-- lexer.rs: `lex`. -/
def lex (s : String) : Option (List Token) := lexLoop s.toList

/-- parser.rs: `Node::push` (panics unless the target is `Program` or `S`). -/
def pushNode (cur : Node) (n : Node) : Option Node :=
  match cur with
  | Node.Program ns => some (Node.Program (ns ++ [n]))
  | Node.S ns => some (Node.S (ns ++ [n]))
  | _ => none

/-- parser.rs: the token loop of `parse`, with the explicit expression
stack and current node.  `none` models every `panic!` / failed `assert!`
(unexpected `)` with a non-`S` current node, popping an empty stack,
a keyword with no match arm — which includes `macro` in this build —,
and a non-empty stack at end of input). -/
def parseLoop : List Token → List Node → Node → Option Node
  | [], stack, cur =>
    match stack with
    | [] =>
      match cur with
      | Node.Program ns => some (Node.Program ns)
      | _ => none
    | _ :: _ => none
  | Token.Bra :: ts, stack, cur => parseLoop ts (cur :: stack) (Node.S [])
  | Token.Ket :: ts, stack, cur =>
    match cur with
    | Node.S ns =>
      match stack with
      | [] => none
      | p :: rest =>
        (pushNode p (Node.S ns)).bind (fun p' => parseLoop ts rest p')
    | _ => none
  | Token.Keyword k :: ts, stack, cur =>
    if k = "+" then (pushNode cur Node.Plus).bind (fun c => parseLoop ts stack c)
    else if k = "fn" then
      (pushNode cur Node.Fn).bind (fun c => parseLoop ts stack c)
    else if k = "let" then
      (pushNode cur Node.Let).bind (fun c => parseLoop ts stack c)
    else if k = "print" then
      (pushNode cur Node.Print).bind (fun c => parseLoop ts stack c)
    else none
  | Token.Name s :: ts, stack, cur =>
    (pushNode cur (Node.Ident s)).bind (fun c => parseLoop ts stack c)
  | Token.Number n :: ts, stack, cur =>
    (pushNode cur (Node.LitNum n)).bind (fun c => parseLoop ts stack c)
  | Token.Str s :: ts, stack, cur =>
    (pushNode cur (Node.LitStr s)).bind (fun c => parseLoop ts stack c)

/-- parser.rs: `parse`. -/
def parse (toks : List Token) : Option Node :=
  parseLoop toks [] (Node.Program [])

/-- `lex` followed by `parse`: what the `parse`/`print`/`run` commands do
to the input text. -/
def parseText (s : String) : Option Node := (lex s).bind parse

/-- Decimal rendering of a number, as `write!(f, "{}", n)` produces. -/
def numChars (n : Nat) : List Char :=
  if n = 0 then ['0'] else ((Nat.digits 10 n).map Nat.digitChar).reverse

mutual
/-- parser.rs: `impl fmt::Display for Node` (the pretty printer used by the
`print` command).  Note string literals are printed *without* quotes.
The `Macro` case renders the keyword's surface syntax; it is never produced
by `parse` in this build. -/
def prettyN : Node → List Char
  | Node.Program ns => prettyL ns
  | Node.S ns => '(' :: (prettyL ns ++ [')'])
  | Node.Plus => ['+']
  | Node.Fn => ['f', 'n']
  | Node.Let => ['l', 'e', 't']
  | Node.Print => ['p', 'r', 'i', 'n', 't']
  | Node.Macro => ['m', 'a', 'c', 'r', 'o']
  | Node.Ident s => s.toList
  | Node.LitNum n => numChars n
  | Node.LitStr s => s.toList

/-- parser.rs: `write_node_list` (children separated by single spaces). -/
def prettyL : List Node → List Char
  | [] => []
  | [n] => prettyN n
  | n :: ns => prettyN n ++ (' ' :: prettyL ns)
end

mutual
/-- The canonical token sequence of a tree (what lexing its pretty-printed
form should give back, for quote-free trees). -/
def toksN : Node → List Token
  | Node.Program ns => toksL ns
  | Node.S ns => Token.Bra :: (toksL ns ++ [Token.Ket])
  | Node.Plus => [Token.Keyword ("+")]
  | Node.Fn => [Token.Keyword ("fn")]
  | Node.Let => [Token.Keyword ("let")]
  | Node.Print => [Token.Keyword ("print")]
  | Node.Macro => [Token.Keyword ("macro")]
  | Node.Ident s => [Token.Name s]
  | Node.LitNum n => [Token.Number n]
  | Node.LitStr s => [Token.Str s]

def toksL : List Node → List Token
  | [] => []
  | n :: ns => toksN n ++ toksL ns
end

/-- A string that `lex` reads back as a single `Name` token: non-empty,
no whitespace/bracket/quote characters, does not start with a digit and
is not a keyword. -/
def validName (s : String) : Bool :=
  match s.toList with
  | [] => false
  | c :: cs =>
    !c.isDigit && !stopChar c && cs.all (fun d => !stopChar d)
      && !(KEYWORDS.contains s)

mutual
/-- The shape of expressions produced by this build's `parse` below the
root: no nested `Program`, no `Macro` leaf, identifiers are re-lexable
names, numbers fit in `u32`. -/
def exprWf : Node → Bool
  | Node.Program _ => false
  | Node.Macro => false
  | Node.Ident s => validName s
  | Node.LitNum n => decide (n < 4294967296)
  | Node.LitStr _ => true
  | Node.S ns => exprWfL ns
  | _ => true

def exprWfL : List Node → Bool
  | [] => true
  | n :: ns => exprWf n && exprWfL ns
end

mutual
/-- No `LitStr` node anywhere in the tree. -/
def strFree : Node → Bool
  | Node.LitStr _ => false
  | Node.Program ns => strFreeL ns
  | Node.S ns => strFreeL ns
  | _ => true

def strFreeL : List Node → Bool
  | [] => true
  | n :: ns => strFree n && strFreeL ns
end

mutual
/-- Whether an empty `Form` (`Node.S []`) occurs anywhere in the tree. -/
def hasEmptyS : Node → Bool
  | Node.S [] => true
  | Node.S ns => hasEmptySL ns
  | Node.Program ns => hasEmptySL ns
  | _ => false

def hasEmptySL : List Node → Bool
  | [] => false
  | n :: ns => hasEmptyS n || hasEmptySL ns
end

-- ------------------------------------------------------------------
-- expand.rs
-- ------------------------------------------------------------------

/-- parser.rs: `Node::expect_ident` (panic mapped to `none`). -/
def expectIdent : Node → Option String
  | Node.Ident s => some s
  | _ => none

/-- parser.rs: `Node::expect_lit_num` (panic mapped to `none`). -/
def expectLitNum : Node → Option Nat
  | Node.LitNum n => some n
  | _ => none

/-- expand.rs: the macro table of `Unhygienic`
(`HashMap<Str, (Vec<Str>, Node)>`), newest entry first. -/
abbrev Table := List (String × (List String × Node))

/-- `HashMap` lookup on the macro table (first = most recent insertion). -/
def tblLookup : Table → String → Option (List String × Node)
  | [], _ => none
  | (k, v) :: t, name => if k = name then some v else tblLookup t name

/-- Positional parameter lookup used by substitution: the argument sitting
at the position of the first parameter equal to `x`. -/
def substLookup : List String → List Node → String → Option Node
  | [], _, _ => none
  | _, [], _ => none
  | p :: ps, a :: args', x =>
    if p = x then some a else substLookup ps args' x

mutual
/-- Modelled from the spec: `Node::subst`, which exists only in the
macro-enabled build variant of parser.rs and is not under `src/`.
Spec §9: "walk the body tree, replace every `Ident` node whose name
matches a parameter with the (unexpanded) argument tree at that position;
no alpha-renaming". -/
def subst : Node → List String → List Node → Node
  | Node.Ident x, ps, args' =>
    match substLookup ps args' x with
    | some a => a
    | none => Node.Ident x
  | Node.Program ns, ps, args' => Node.Program (substL ns ps args')
  | Node.S ns, ps, args' => Node.S (substL ns ps args')
  | n, _, _ => n

def substL : List Node → List String → List Node → List Node
  | [], _, _ => []
  | n :: ns, ps, args' => subst n ps args' :: substL ns ps args'
end

/-- expand.rs: `Unhygienic::fold_macro`.  `ns` includes the `Macro` head.
Index `ns[1]` is the macro name, `pop()` removes the body, `ns[2..]` of the
remainder are the parameters; the form expands to the empty form. -/
def foldMacroU (tbl : Table) (ns : List Node) : Option (Node × Table) :=
  match ns.get? 1 with
  | none => none
  | some nameNode =>
    match expectIdent nameNode with
    | none => none
    | some name =>
      match ns.getLast? with
      | none => none
      | some body =>
        match (ns.dropLast.drop 2).mapM expectIdent with
        | none => none
        | some ps => some (Node.S [], (name, (ps, body)) :: tbl)

/-- expand.rs: `Unhygienic::fold_ident`.  `ns` includes the `Ident` head.
A registered macro is substituted (arity must match exactly); anything else
passes through *without* recursing into the children. -/
def foldIdentU (tbl : Table) (ns : List Node) : Option (Node × Table) :=
  match ns with
  | Node.Ident name :: args' =>
    match tblLookup tbl name with
    | some (ps, body) =>
      if args'.length = ps.length then some (subst body ps args', tbl)
      else none
    | none => some (Node.S ns, tbl)
  | _ => none

mutual
/-- expand.rs: `fold`, specialised to the `Unhygienic` folder used by the
`expand` command, the mutable folder state (the macro table) threaded
explicitly.  `&ns[0]` on an empty form is an index panic (`none`); a bare
`Macro` leaf panics ("noop fold of macro"). -/
def foldU : Table → Node → Option (Node × Table)
  | tbl, Node.Program ns =>
    match foldL tbl ns with
    | some (ns', tbl') => some (Node.Program ns', tbl')
    | none => none
  | tbl, Node.S ns =>
    match ns with
    | [] => none
    | h :: _ =>
      match h with
      | Node.Macro => foldMacroU tbl ns
      | Node.Ident _ => foldIdentU tbl ns
      | _ =>
        match foldL tbl ns with
        | some (ns', tbl') => some (Node.S ns', tbl')
        | none => none
  | _, Node.Macro => none
  | tbl, n => some (n, tbl)

/-- Children folded left to right, the table threaded through. -/
def foldL : Table → List Node → Option (List Node × Table)
  | tbl, [] => some ([], tbl)
  | tbl, n :: ns =>
    match foldU tbl n with
    | some (n', tbl') =>
      match foldL tbl' ns with
      | some (ns', tbl'') => some (n' :: ns', tbl'')
      | none => none
    | none => none
end

-- ------------------------------------------------------------------
-- interpreter.rs
-- ------------------------------------------------------------------

/-- interpreter.rs: `type Rib = HashMap<Str, Node>` as an association list
(no rib ever holds a duplicate key, `store` forbids it). -/
abbrev Rib := List (String × Node)

/-- interpreter.rs: `Envr` — the rib stack.  The Rust `Vec` keeps the
innermost rib *last*; here the innermost rib is the list *head* (so Rust's
`iter().rev()` scan is a head-to-tail scan). -/
abbrev Env := List Rib

/-- `HashMap::get` on one rib. -/
def ribLookup : Rib → String → Option Node
  | [], _ => none
  | (k, v) :: r, name => if k = name then some v else ribLookup r name

/-- interpreter.rs: `Envr::lookup` — innermost-to-outermost scan, first
match wins. -/
def lookupEnv : Env → String → Option Node
  | [], _ => none
  | rib :: rest, name =>
    match ribLookup rib name with
    | some v => some v
    | none => lookupEnv rest name

/-- interpreter.rs: `Envr::store` — fatal (`none`) when there is no rib or
when the name already exists in the innermost rib. -/
def store (env : Env) (name : String) (v : Node) : Option Env :=
  match env with
  | [] => none
  | rib :: rest =>
    match ribLookup rib name with
    | some _ => none
    | none => some (((name, v) :: rib) :: rest)

/-- `&ns[0] == &Node::Fn`. -/
def isFn : Node → Bool
  | Node.Fn => true
  | _ => false

/-- parser.rs: `Node::is_value` — literals, the empty form, and
`fn`-headed forms are self-evaluating. -/
def isValue : Node → Bool
  | Node.LitStr _ => true
  | Node.LitNum _ => true
  | Node.S [] => true
  | Node.S (h :: _) => isFn h
  | _ => false

/-- Interpreter results: `timeout` is fuel exhaustion (the Rust code just
recurses), `fatal` is any `panic!` / failed `assert!`. -/
inductive Res (α : Type) : Type where
  | timeout : Res α
  | fatal : Res α
  | ok : α → Res α
deriving DecidableEq, Repr

/-- interpreter.rs, `Node::Plus` arm: `args.iter().fold(0, |a, n| a +
n.expect_lit_num())`.  A non-numeric argument panics; `u32` addition
overflow panics (debug build). -/
def sumNums : Nat → List Node → Option Nat
  | acc, [] => some acc
  | acc, v :: vs =>
    match expectLitNum v with
    | none => none
    | some m => if acc + m < 4294967296 then sumNums (acc + m) vs else none

/-- interpreter.rs, function application: `formals.iter().zip(args)` with
`envr.store` for each pair (fatal on a duplicate formal). -/
def bindAll : Env → List String → List Node → Option Env
  | env, [], _ => some env
  | env, _, [] => some env
  | env, name :: names, v :: vs =>
    match store env name v with
    | some env' => bindAll env' names vs
    | none => none

mutual
/-- interpreter.rs: `run_node`, with fuel.  Every recursive call runs on
decremented fuel; all scope pushes/pops are pure (`RibGuard` is encoded by
passing the extended environment only to the sub-evaluation). -/
def runNode : Nat → Env → Node → Res Node
  | 0, _, _ => Res.timeout
  | fuel + 1, env, input =>
    if isValue input then Res.ok input
    else
      match input with
      | Node.S (h :: rest) =>
        match h with
        | Node.Print =>
          match runArgs fuel env rest with
          | Res.ok _ => Res.ok (Node.S [])
          | Res.timeout => Res.timeout
          | Res.fatal => Res.fatal
        | Node.Plus =>
          match runArgs fuel env rest with
          | Res.ok vals =>
            match sumNums 0 vals with
            | some m => Res.ok (Node.LitNum m)
            | none => Res.fatal
          | Res.timeout => Res.timeout
          | Res.fatal => Res.fatal
        | Node.Let =>
          -- `body = ns[len-1]`, `args = ns[1..len-1]` (an index panic when
          -- the form is just `(let)`), even arity check, then the binding
          -- loop in a freshly pushed rib, then the body in that scope.
          match rest with
          | [] => Res.fatal
          | _ :: _ =>
            if rest.dropLast.length % 2 = 0 then
              match letBind fuel ([] :: env) rest.dropLast with
              | Res.ok env' => runNode fuel env' (rest.getLast?.getD (Node.S []))
              | Res.timeout => Res.timeout
              | Res.fatal => Res.fatal
            else Res.fatal
        | Node.S (Node.Fn :: sub) =>
          -- function application: `assert!(sub_ns.len() > 1)`, formals
          -- extracted by `expect_ident`, arguments evaluated in the
          -- caller's environment, exact arity check, positional binding in
          -- a freshly pushed rib, then the body in that scope.
          match sub with
          | [] => Res.fatal
          | _ :: _ =>
            match sub.dropLast.mapM expectIdent with
            | none => Res.fatal
            | some names =>
              match runArgs fuel env rest with
              | Res.ok args' =>
                if args'.length = names.length then
                  match bindAll ([] :: env) names args' with
                  | some env' =>
                    runNode fuel env' (sub.getLast?.getD (Node.S []))
                  | none => Res.fatal
                else Res.fatal
              | Res.timeout => Res.timeout
              | Res.fatal => Res.fatal
        | _ =>
          match runNode fuel env h with
          | Res.ok h' => runNode fuel env (Node.S (h' :: rest))
          | Res.timeout => Res.timeout
          | Res.fatal => Res.fatal
      | Node.Ident s =>
        match lookupEnv env s with
        | some v => Res.ok v
        | none => Res.fatal
      | _ => Res.fatal

/-- interpreter.rs: `run_args` — `ns[1..]` evaluated left to right in the
caller's environment. -/
def runArgs : Nat → Env → List Node → Res (List Node)
  | 0, _, _ => Res.timeout
  | _ + 1, _, [] => Res.ok []
  | fuel + 1, env, e :: es =>
    match runNode fuel env e with
    | Res.ok v =>
      match runArgs fuel env es with
      | Res.ok vs => Res.ok (v :: vs)
      | Res.timeout => Res.timeout
      | Res.fatal => Res.fatal
    | Res.timeout => Res.timeout
    | Res.fatal => Res.fatal

/-- interpreter.rs, `Node::Let` arm: the binding loop — for each pair the
name is read (`expect_ident`), the expression evaluated in the environment
extended with all *earlier* bindings, and the result stored.  The caller
checks the list has even length, so the one-element case is unreachable. -/
def letBind : Nat → Env → List Node → Res Env
  | 0, _, _ => Res.timeout
  | _ + 1, env, [] => Res.ok env
  | fuel + 1, env, nameNode :: exprNode :: rest =>
    match expectIdent nameNode with
    | none => Res.fatal
    | some name =>
      match runNode fuel env exprNode with
      | Res.ok v =>
        match store env name v with
        | some env' => letBind fuel env' rest
        | none => Res.fatal
      | Res.timeout => Res.timeout
      | Res.fatal => Res.fatal
  | _ + 1, _, [_] => Res.fatal
end

/-- interpreter.rs: the loop of `run_program` — each entry evaluated with a
brand-new, empty environment (`Envr::new()` has *no* ribs). -/
def runEntries : Nat → List Node → Res (List Node)
  | _, [] => Res.ok []
  | fuel, e :: es =>
    match runNode fuel [] e with
    | Res.ok v =>
      match runEntries fuel es with
      | Res.ok vs => Res.ok (v :: vs)
      | Res.timeout => Res.timeout
      | Res.fatal => Res.fatal
    | Res.timeout => Res.timeout
    | Res.fatal => Res.fatal

/-- interpreter.rs: `run_program`. -/
def runProgram (fuel : Nat) (input : Node) : Res (List Node) :=
  match input with
  | Node.Program ns => runEntries fuel ns
  | _ => Res.fatal

/-- `run_node` evaluates `t` to `v` (for some fuel; by monotonicity the
result then holds for all larger fuel). -/
def NEvals (env : Env) (t v : Node) : Prop :=
  ∃ n, runNode n env t = Res.ok v

/-- `run_node` aborts fatally on `t`. -/
def NFatal (env : Env) (t : Node) : Prop :=
  ∃ n, runNode n env t = Res.fatal

/-- Token counting for the bracket-balance facts about `parse`. -/
def braCount : List Token → Nat
  | [] => 0
  | Token.Bra :: ts => braCount ts + 1
  | _ :: ts => braCount ts

def ketCount : List Token → Nat
  | [] => 0
  | Token.Ket :: ts => ketCount ts + 1
  | _ :: ts => ketCount ts

/-- Tokens as produced by `lex`: every `Name` is a re-lexable name and
every `Number` fits in `u32`. -/
def tokGood : Token → Bool
  | Token.Name s => validName s
  | Token.Number n => decide (n < 4294967296)
  | _ => true

/-- What may legally follow a pretty-printed atom so that re-lexing stops
exactly at the atom's end: end of input, a space, or a closing bracket. -/
def atomSep : List Char → Prop
  | [] => True
  | c :: _ => c = ' ' ∨ c = ')'

/-- Iterated `Node::push`. -/
def pushAll : Node → List Node → Option Node
  | cur, [] => some cur
  | cur, n :: ns => (pushNode cur n).bind (fun c => pushAll c ns)

/-- A node acceptable as the parser's accumulator (`cur` or a stack
entry): a `Program` or `S` whose children so far are well-formed
expressions. -/
def accWf : Node → Bool
  | Node.Program cs => exprWfL cs
  | Node.S cs => exprWfL cs
  | _ => false

-- ==================================================================
-- Theorems
-- ==================================================================

-- ------------------------------------------------------------------
-- Lexer infrastructure: the fuel in `lexGo` is irrelevant as long as it
-- dominates the input length, so `lexLoop` is the Rust loop.
-- ------------------------------------------------------------------

theorem dropWhile_length_le (p : Char → Bool) (l : List Char) :
    (List.dropWhile p l).length ≤ l.length := by
  induction l with
  | nil => simp [List.dropWhile]
  | cons a l ih =>
    rw [List.dropWhile_cons]
    cases p a
    · simp
    · simpa using Nat.le_succ_of_le ih

theorem lexGo_fuel :
    ∀ (fuel : Nat) (cs : List Char), cs.length ≤ fuel →
      lexGo fuel cs = lexLoop cs := by
  intro fuel
  induction fuel using Nat.strong_induction_on with
  | _ fuel ih =>
    intro cs hlen
    cases cs with
    | nil => cases fuel <;> rfl
    | cons c cs' =>
      cases fuel with
      | zero => simp at hlen
      | succ f =>
        have hf : cs'.length ≤ f := by
          simpa using hlen
        have step :
            ∀ l' : List Char, l'.length ≤ cs'.length →
              lexGo f l' = lexGo cs'.length l' := by
          intro l' hl'
          have h1 := ih f (Nat.lt_succ_self f) l' (le_trans hl' hf)
          have h2 := ih cs'.length (Nat.lt_succ_of_le hf) l' hl'
          rw [h1, h2]
        show lexGo (f + 1) (c :: cs') = lexGo (cs'.length + 1) (c :: cs')
        rw [lexGo, lexGo]
        have hws : cs'.length ≤ cs'.length := le_refl _
        have hstr : ((cs'.dropWhile (fun d => d != '"')).drop 1).length
            ≤ cs'.length := by
          have := dropWhile_length_le (fun d => d != '"') cs'
          simp only [List.length_drop]
          omega
        have hdig : (cs'.dropWhile Char.isDigit).length ≤ cs'.length :=
          dropWhile_length_le _ _
        have hnam : (cs'.dropWhile (fun d => !stopChar d)).length
            ≤ cs'.length :=
          dropWhile_length_le _ _
        rw [step cs' hws, step _ hstr, step _ hdig, step _ hnam]

-- ------------------------------------------------------------------
-- C7: environment lookup and store
-- ------------------------------------------------------------------

/-- C7: `Envr::lookup` scans the ribs innermost-to-outermost and returns
the first binding found (an inner binding shadows an outer one), reporting
not-found when no rib binds the name; `Envr::store` is fatal when the name
is already present in the innermost rib, and succeeds when the name is
bound only in an outer rib. -/
theorem c7_lookup_shadowing_store_innermost :
    (∀ name, lookupEnv [] name = none)
    ∧ (∀ (rib : Rib) (rest : Env) (name : String) (v : Node),
        ribLookup rib name = some v → lookupEnv (rib :: rest) name = some v)
    ∧ (∀ (rib : Rib) (rest : Env) (name : String),
        ribLookup rib name = none →
        lookupEnv (rib :: rest) name = lookupEnv rest name)
    ∧ (∀ (rib : Rib) (rest : Env) (name : String) (v w : Node),
        ribLookup rib name = some w → store (rib :: rest) name v = none)
    ∧ (∀ (rib : Rib) (rest : Env) (name : String) (v : Node),
        ribLookup rib name = none →
        store (rib :: rest) name v = some (((name, v) :: rib) :: rest)) := by
  refine ⟨fun _ => rfl, ?_, ?_, ?_, ?_⟩ <;> intros
  all_goals simp_all [lookupEnv, store]

/-- Witness for C7: a shadowed lookup returns the innermost binding, a
same-rib re-store is fatal, and a store over an outer-rib binding
succeeds. -/
theorem c7_witness :
    lookupEnv [[("x", Node.LitNum 42)], [("x", Node.LitNum 0)]] "x"
      = some (Node.LitNum 42)
    ∧ store [[("x", Node.LitNum 42)], []] "x" (Node.LitNum 0) = none
    ∧ store [[], [("x", Node.LitNum 0)]] "x" (Node.LitNum 42)
      = some [[("x", Node.LitNum 42)], [("x", Node.LitNum 0)]] :=
  ⟨c7_lookup_shadowing_store_innermost.2.1 _ _ _ _ rfl,
   c7_lookup_shadowing_store_innermost.2.2.2.1 _ _ _ _ _ rfl,
   c7_lookup_shadowing_store_innermost.2.2.2.2 _ _ _ _ rfl⟩

-- ------------------------------------------------------------------
-- C9: non-termination of the reduce-head-and-retry step
-- ------------------------------------------------------------------

/-- C9: a form with at least two children whose head is a self-evaluating
value that is not a function literal (a number literal, a string literal,
or the empty form) never terminates: the reduce-head-and-retry step of
`run_node` rebuilds the identical form and re-dispatches it, so evaluation
times out at every fuel. -/
theorem c9_reduce_head_diverges (v : Node) (args : List Node)
    (hv : v = Node.S [] ∨ (∃ m, v = Node.LitNum m) ∨ (∃ s, v = Node.LitStr s))
    (_hargs : args ≠ []) :
    ∀ (fuel : Nat) (env : Env),
      runNode fuel env (Node.S (v :: args)) = Res.timeout := by
  intro fuel
  induction fuel with
  | zero => intro env; rfl
  | succ n ih =>
    intro env
    rcases hv with h | ⟨m, h⟩ | ⟨s, h⟩ <;> subst h <;>
      cases n with
      | zero => rfl
      | succ k =>
        simp only [runNode, isValue, isFn]
        exact ih _

/-- Witness for C9: `(42 1)` times out (here at fuel 5). -/
theorem c9_witness :
    runNode 5 [] (Node.S [Node.LitNum 42, Node.LitNum 1]) = Res.timeout :=
  c9_reduce_head_diverges (Node.LitNum 42) [Node.LitNum 1]
    (Or.inr (Or.inl ⟨42, rfl⟩)) (by simp) 5 []

-- ------------------------------------------------------------------
-- C10: the expansion fold and the empty form
-- ------------------------------------------------------------------

/-- C10 counterexample: the claim "for every tree containing an empty
`Form`, the expansion fold fails" is false — `Unhygienic::fold_ident`
returns an identifier-headed form that is not a macro invocation without
recursing into its children, so the empty form inside `(f ())` is never
visited and the fold succeeds. -/
theorem c10_counterexample :
    hasEmptyS (Node.Program [Node.S [Node.Ident ("f"), Node.S []]]) = true
    ∧ foldU [] (Node.Program [Node.S [Node.Ident ("f"), Node.S []]])
      = some (Node.Program [Node.S [Node.Ident ("f"), Node.S []]], []) :=
  ⟨rfl, rfl⟩

/-- C10 (amended): `fold` inspects `&ns[0]` of every `Form` it visits, so
the empty form itself fails to fold, and a `Program` one of whose
top-level entries is the empty form fails to fold; but the fold does not
visit the children of an identifier-headed non-macro form, so a tree may
contain an empty form and still fold successfully. -/
theorem c10_fold_empty_form :
    (∀ tbl : Table, foldU tbl (Node.S []) = none)
    ∧ (∀ (tbl : Table) (ns : List Node), Node.S [] ∈ ns →
        foldU tbl (Node.Program ns) = none) := by
  constructor
  · intro tbl; rfl
  · intro tbl ns h
    suffices h2 : ∀ tbl : Table, foldL tbl ns = none by simp [foldU, h2 tbl]
    clear tbl
    induction ns with
    | nil => exact absurd h (List.not_mem_nil _)
    | cons a as ih =>
      intro tbl
      rcases List.mem_cons.mp h with ha | has
      · rw [← ha]
        simp [foldL, foldU]
      · rw [foldL]
        cases hf : foldU tbl a with
        | none => rfl
        | some p =>
          obtain ⟨n', tbl'⟩ := p
          simp [ih has tbl']

/-- Witness for C10: a program whose sole entry is the empty form fails to
fold. -/
theorem c10_witness :
    foldU [] (Node.Program [Node.S []]) = none :=
  c10_fold_empty_form.2 [] [Node.S []] (List.mem_singleton.mpr rfl)

-- ------------------------------------------------------------------
-- C3: the tree builder returns a single Program or fails
-- ------------------------------------------------------------------

/-- Any successful run of the parser loop returns a `Program` node: the
only `some` exit is the end-of-input case, which insists on `Program`. -/
theorem parseLoop_program :
    ∀ (toks : List Token) (stack : List Node) (cur t : Node),
      parseLoop toks stack cur = some t → ∃ ns, t = Node.Program ns := by
  intro toks
  induction toks with
  | nil =>
    intro stack cur t h
    rw [parseLoop.eq_def] at h
    try simp only at h
    repeat' split at h
    all_goals try cases h
    exact ⟨_, rfl⟩
  | cons tok ts ih =>
    intro stack cur t h
    cases tok
    case Bra => exact ih _ _ _ h
    all_goals
      rw [parseLoop.eq_def] at h
      simp only at h
      repeat' split at h
      all_goals try cases h
      all_goals
        rw [Option.bind_eq_some] at h
        obtain ⟨c, _, h⟩ := h
        exact ih _ _ _ h

/-- Bracket balance along any successful run of the parser loop: the final
`Ket` count settles the stack depth, and no prefix ever closes more
brackets than it has opened plus the ambient depth. -/
theorem parseLoop_balance :
    ∀ (toks : List Token) (stack : List Node) (cur t : Node),
      parseLoop toks stack cur = some t →
      ketCount toks = stack.length + braCount toks
      ∧ ∀ p q, toks = p ++ q → ketCount p ≤ stack.length + braCount p := by
  intro toks
  induction toks with
  | nil =>
    intro stack cur t h
    match stack, h with
    | [], h =>
      refine ⟨rfl, ?_⟩
      intro p q hpq
      have : p = ([] : List Token) := by
        cases p with
        | nil => rfl
        | cons a as => cases hpq
      subst this
      simp [ketCount, braCount]
  | cons tok ts ih =>
    intro stack cur t h
    cases tok
    case Bra =>
      have h' := ih (cur :: stack) (Node.S []) t h
      refine ⟨?_, ?_⟩
      · have := h'.1
        simp only [ketCount, braCount, List.length_cons] at this ⊢
        omega
      · intro p q hpq
        cases p with
        | nil => simp [ketCount]
        | cons a as =>
          injection hpq with ha hts
          subst ha
          have := h'.2 as q hts
          simp only [ketCount, braCount, List.length_cons] at this ⊢
          omega
    case Ket =>
      rw [parseLoop.eq_def] at h
      simp only at h
      repeat' split at h
      all_goals try cases h
      rw [Option.bind_eq_some] at h
      obtain ⟨p', _, h⟩ := h
      rename_i ns rest p₀
      have h' := ih rest p' t h
      refine ⟨?_, ?_⟩
      · have := h'.1
        simp only [ketCount, braCount, List.length_cons] at this ⊢
        omega
      · intro p q hpq
        cases p with
        | nil => simp [ketCount]
        | cons a as =>
          injection hpq with ha hts
          subst ha
          have := h'.2 as q hts
          simp only [ketCount, braCount, List.length_cons] at this ⊢
          omega
    all_goals
      rw [parseLoop.eq_def] at h
      simp only at h
      repeat' split at h
      all_goals try cases h
      all_goals
        rw [Option.bind_eq_some] at h
        obtain ⟨c, _, h⟩ := h
        have h' := ih stack c t h
        refine ⟨?_, ?_⟩
        · have := h'.1
          simp only [ketCount, braCount] at this ⊢
          omega
        · intro p q hpq
          cases p with
          | nil => simp [ketCount]
          | cons a as =>
            injection hpq with ha hts
            subst ha
            have := h'.2 as q hts
            simp only [ketCount, braCount] at this ⊢
            omega

/-- C3: when the tree builder returns it returns a single `Program`; the
empty token sequence yields an empty `Program`; a prefix with an unmatched
closing bracket is fatal, an unclosed group at end of input (unequal
bracket counts) is fatal; in particular the token sequences of `(`, `)`,
and `(baz 42))` all fail to build. -/
theorem c3_builder_program_and_failures :
    (∀ toks t, parse toks = some t → ∃ ns, t = Node.Program ns)
    ∧ parse [] = some (Node.Program [])
    ∧ (∀ toks p q, toks = p ++ q → braCount p < ketCount p →
        parse toks = none)
    ∧ (∀ toks, braCount toks ≠ ketCount toks → parse toks = none)
    ∧ parseText ("(") = none
    ∧ parseText (")") = none
    ∧ parseText ("(baz 42))") = none := by
  refine ⟨?_, rfl, ?_, ?_, rfl, rfl, rfl⟩
  · intro toks t h
    exact parseLoop_program toks [] (Node.Program []) t h
  · intro toks p q hpq hlt
    cases h : parse toks with
    | none => rfl
    | some t =>
      have := (parseLoop_balance toks [] (Node.Program []) t h).2 p q hpq
      simp only [List.length_nil, Nat.zero_add] at this
      omega
  · intro toks hne
    cases h : parse toks with
    | none => rfl
    | some t =>
      have := (parseLoop_balance toks [] (Node.Program []) t h).1
      simp only [List.length_nil, Nat.zero_add] at this
      omega

/-- Witness for C3: the quantified parts instantiated — the successful
empty parse produces a `Program`, and a lone `)` (a prefix with an excess
closing bracket) fails. -/
theorem c3_witness :
    (∃ ns, Node.Program ([] : List Node) = Node.Program ns)
    ∧ parse [Token.Ket] = none :=
  ⟨c3_builder_program_and_failures.1 [] (Node.Program []) rfl,
   c3_builder_program_and_failures.2.2.1 [Token.Ket] [Token.Ket] [] rfl
     (by decide)⟩

-- ------------------------------------------------------------------
-- Fuel monotonicity of the interpreter: a non-timeout result is stable
-- under additional fuel, so `NEvals` / `NFatal` are mutually exclusive and
-- values are unique.
-- ------------------------------------------------------------------

-- Step equations for `runNode` at successor fuel, one per dispatch shape
-- of `run_node`; all definitional.

theorem runNode_step_zero (env : Env) (t : Node) :
    runNode 0 env t = Res.timeout := rfl

theorem runNode_step_litnum (n : Nat) (env : Env) (m : Nat) :
    runNode (n + 1) env (Node.LitNum m) = Res.ok (Node.LitNum m) := rfl

theorem runNode_step_litstr (n : Nat) (env : Env) (s : String) :
    runNode (n + 1) env (Node.LitStr s) = Res.ok (Node.LitStr s) := rfl

theorem runNode_step_empty (n : Nat) (env : Env) :
    runNode (n + 1) env (Node.S []) = Res.ok (Node.S []) := rfl

theorem runNode_step_fnlit (n : Nat) (env : Env) (rest : List Node) :
    runNode (n + 1) env (Node.S (Node.Fn :: rest))
      = Res.ok (Node.S (Node.Fn :: rest)) := rfl

theorem runNode_step_ident (n : Nat) (env : Env) (s : String) :
    runNode (n + 1) env (Node.Ident s)
      = (match lookupEnv env s with
          | some v => Res.ok v
          | none => Res.fatal) := rfl

theorem runNode_step_prog (n : Nat) (env : Env) (ns : List Node) :
    runNode (n + 1) env (Node.Program ns) = Res.fatal := rfl

theorem runNode_step_kw_plus (n : Nat) (env : Env) :
    runNode (n + 1) env Node.Plus = Res.fatal := rfl

theorem runNode_step_kw_fn (n : Nat) (env : Env) :
    runNode (n + 1) env Node.Fn = Res.fatal := rfl

theorem runNode_step_kw_let (n : Nat) (env : Env) :
    runNode (n + 1) env Node.Let = Res.fatal := rfl

theorem runNode_step_kw_print (n : Nat) (env : Env) :
    runNode (n + 1) env Node.Print = Res.fatal := rfl

theorem runNode_step_macro_leaf (n : Nat) (env : Env) :
    runNode (n + 1) env Node.Macro = Res.fatal := rfl

theorem runNode_step_print (n : Nat) (env : Env) (rest : List Node) :
    runNode (n + 1) env (Node.S (Node.Print :: rest))
      = (match runArgs n env rest with
          | Res.ok _ => Res.ok (Node.S [])
          | Res.timeout => Res.timeout
          | Res.fatal => Res.fatal) := rfl

theorem runNode_step_plus (n : Nat) (env : Env) (rest : List Node) :
    runNode (n + 1) env (Node.S (Node.Plus :: rest))
      = (match runArgs n env rest with
          | Res.ok vals =>
            (match sumNums 0 vals with
              | some m => Res.ok (Node.LitNum m)
              | none => Res.fatal)
          | Res.timeout => Res.timeout
          | Res.fatal => Res.fatal) := rfl

theorem runNode_step_let_nil (n : Nat) (env : Env) :
    runNode (n + 1) env (Node.S [Node.Let]) = Res.fatal := rfl

theorem runNode_step_let (n : Nat) (env : Env) (b : Node) (bs : List Node) :
    runNode (n + 1) env (Node.S (Node.Let :: b :: bs))
      = (if ((b :: bs).dropLast).length % 2 = 0 then
          match letBind n ([] :: env) ((b :: bs).dropLast) with
          | Res.ok env' =>
            runNode n env' ((b :: bs).getLast?.getD (Node.S []))
          | Res.timeout => Res.timeout
          | Res.fatal => Res.fatal
        else Res.fatal) := rfl

theorem runNode_step_app_nobody (n : Nat) (env : Env) (rest : List Node) :
    runNode (n + 1) env (Node.S (Node.S [Node.Fn] :: rest)) = Res.fatal := rfl

theorem runNode_step_app (n : Nat) (env : Env) (x : Node) (xs rest : List Node) :
    runNode (n + 1) env (Node.S (Node.S (Node.Fn :: x :: xs) :: rest))
      = (match ((x :: xs).dropLast).mapM expectIdent with
          | none => Res.fatal
          | some names =>
            match runArgs n env rest with
            | Res.ok args' =>
              if args'.length = names.length then
                match bindAll ([] :: env) names args' with
                | some env' =>
                  runNode n env' ((x :: xs).getLast?.getD (Node.S []))
                | none => Res.fatal
              else Res.fatal
            | Res.timeout => Res.timeout
            | Res.fatal => Res.fatal) := rfl

/-- The reduce-head-and-retry step, for every head that is not one of the
dispatched shapes: a head which is neither a keyword arm (`Print`, `Plus`,
`Let`), nor a value-making head (`Fn`, or a `Form`-headed `Fn`), nor the
empty form, is evaluated and the form rebuilt and re-dispatched. -/
theorem runNode_step_reduce_ident (n : Nat) (env : Env) (s : String)
    (rest : List Node) :
    runNode (n + 1) env (Node.S (Node.Ident s :: rest))
      = (match runNode n env (Node.Ident s) with
          | Res.ok h' => runNode n env (Node.S (h' :: rest))
          | Res.timeout => Res.timeout
          | Res.fatal => Res.fatal) := rfl

theorem runNode_step_reduce_litnum (n : Nat) (env : Env) (m : Nat)
    (rest : List Node) :
    runNode (n + 1) env (Node.S (Node.LitNum m :: rest))
      = (match runNode n env (Node.LitNum m) with
          | Res.ok h' => runNode n env (Node.S (h' :: rest))
          | Res.timeout => Res.timeout
          | Res.fatal => Res.fatal) := rfl

theorem runNode_step_reduce_litstr (n : Nat) (env : Env) (s : String)
    (rest : List Node) :
    runNode (n + 1) env (Node.S (Node.LitStr s :: rest))
      = (match runNode n env (Node.LitStr s) with
          | Res.ok h' => runNode n env (Node.S (h' :: rest))
          | Res.timeout => Res.timeout
          | Res.fatal => Res.fatal) := rfl

theorem runNode_step_reduce_prog (n : Nat) (env : Env) (ms : List Node)
    (rest : List Node) :
    runNode (n + 1) env (Node.S (Node.Program ms :: rest))
      = (match runNode n env (Node.Program ms) with
          | Res.ok h' => runNode n env (Node.S (h' :: rest))
          | Res.timeout => Res.timeout
          | Res.fatal => Res.fatal) := rfl

theorem runNode_step_reduce_macro_head (n : Nat) (env : Env) (rest : List Node) :
    runNode (n + 1) env (Node.S (Node.Macro :: rest))
      = (match runNode n env Node.Macro with
          | Res.ok h' => runNode n env (Node.S (h' :: rest))
          | Res.timeout => Res.timeout
          | Res.fatal => Res.fatal) := rfl

theorem runNode_step_reduce_empty (n : Nat) (env : Env) (rest : List Node) :
    runNode (n + 1) env (Node.S (Node.S [] :: rest))
      = (match runNode n env (Node.S []) with
          | Res.ok h' => runNode n env (Node.S (h' :: rest))
          | Res.timeout => Res.timeout
          | Res.fatal => Res.fatal) := rfl

theorem runNode_step_reduce_s (n : Nat) (env : Env) (sh : Node)
    (stail rest : List Node) (hsh : isFn sh = false) :
    runNode (n + 1) env (Node.S (Node.S (sh :: stail) :: rest))
      = (match runNode n env (Node.S (sh :: stail)) with
          | Res.ok h' => runNode n env (Node.S (h' :: rest))
          | Res.timeout => Res.timeout
          | Res.fatal => Res.fatal) := by
  cases sh
  case Fn => simp [isFn] at hsh
  all_goals rfl

theorem runArgs_step_zero (env : Env) (es : List Node) :
    runArgs 0 env es = Res.timeout := rfl

theorem runArgs_step_nil (n : Nat) (env : Env) :
    runArgs (n + 1) env [] = Res.ok [] := rfl

theorem runArgs_step_cons (n : Nat) (env : Env) (e : Node) (es : List Node) :
    runArgs (n + 1) env (e :: es)
      = (match runNode n env e with
          | Res.ok v =>
            match runArgs n env es with
            | Res.ok vs => Res.ok (v :: vs)
            | Res.timeout => Res.timeout
            | Res.fatal => Res.fatal
          | Res.timeout => Res.timeout
          | Res.fatal => Res.fatal) := rfl

theorem letBind_step_zero (env : Env) (bs : List Node) :
    letBind 0 env bs = Res.timeout := rfl

theorem letBind_step_nil (n : Nat) (env : Env) :
    letBind (n + 1) env [] = Res.ok env := rfl

theorem letBind_step_one (n : Nat) (env : Env) (b : Node) :
    letBind (n + 1) env [b] = Res.fatal := rfl

theorem letBind_step_cons (n : Nat) (env : Env) (nameNode exprNode : Node)
    (rest : List Node) :
    letBind (n + 1) env (nameNode :: exprNode :: rest)
      = (match expectIdent nameNode with
          | none => Res.fatal
          | some name =>
            match runNode n env exprNode with
            | Res.ok v =>
              match store env name v with
              | some env' => letBind n env' rest
              | none => Res.fatal
            | Res.timeout => Res.timeout
            | Res.fatal => Res.fatal) := rfl

theorem run_mono :
    ∀ n : Nat,
      (∀ (env : Env) (t : Node) (r : Res Node), r ≠ Res.timeout →
        runNode n env t = r → runNode (n + 1) env t = r)
      ∧ (∀ (env : Env) (es : List Node) (r : Res (List Node)),
          r ≠ Res.timeout → runArgs n env es = r → runArgs (n + 1) env es = r)
      ∧ (∀ (env : Env) (bs : List Node) (r : Res Env), r ≠ Res.timeout →
          letBind n env bs = r → letBind (n + 1) env bs = r) := by
  intro n
  induction n with
  | zero =>
    refine ⟨?_, ?_, ?_⟩ <;> intro env x r hto hr <;>
      exact absurd hr.symm hto
  | succ n ih =>
    obtain ⟨ihN, ihA, ihL⟩ := ih
    have hfne : ∀ {α : Type}, (Res.fatal : Res α) ≠ Res.timeout :=
      fun hc => Res.noConfusion hc
    have hokne : ∀ {α : Type} (a : α), (Res.ok a : Res α) ≠ Res.timeout :=
      fun _ hc => Res.noConfusion hc
    refine ⟨?_, ?_, ?_⟩
    · -- runNode
      intro env t r hto hr
      cases t with
      | Program ns => rw [runNode_step_prog] at hr ⊢; exact hr
      | Plus => rw [runNode_step_kw_plus] at hr ⊢; exact hr
      | Fn => rw [runNode_step_kw_fn] at hr ⊢; exact hr
      | Let => rw [runNode_step_kw_let] at hr ⊢; exact hr
      | Print => rw [runNode_step_kw_print] at hr ⊢; exact hr
      | Macro => rw [runNode_step_macro_leaf] at hr ⊢; exact hr
      | LitNum m => rw [runNode_step_litnum] at hr ⊢; exact hr
      | LitStr s => rw [runNode_step_litstr] at hr ⊢; exact hr
      | Ident s => rw [runNode_step_ident] at hr ⊢; exact hr
      | S ns =>
        cases ns with
        | nil => rw [runNode_step_empty] at hr ⊢; exact hr
        | cons h rest =>
          have reduceStep :
              ∀ h0 : Node,
                runNode n env h0 = runNode n env h0 →
                (match runNode n env h0 with
                  | Res.ok h' => runNode n env (Node.S (h' :: rest))
                  | Res.timeout => Res.timeout
                  | Res.fatal => Res.fatal) = r →
                (match runNode (n + 1) env h0 with
                  | Res.ok h' => runNode (n + 1) env (Node.S (h' :: rest))
                  | Res.timeout => Res.timeout
                  | Res.fatal => Res.fatal) = r := by
            intro h0 _ hr0
            cases hh : runNode n env h0 with
            | timeout => rw [hh] at hr0; exact absurd hr0.symm hto
            | fatal => rw [hh] at hr0; rw [ihN _ _ _ hfne hh]; exact hr0
            | ok h' =>
              rw [hh] at hr0
              rw [ihN _ _ _ (hokne h') hh]
              exact ihN _ _ _ hto hr0
          cases h with
          | Fn => rw [runNode_step_fnlit] at hr ⊢; exact hr
          | Print =>
            rw [runNode_step_print] at hr ⊢
            cases ha : runArgs n env rest with
            | timeout => rw [ha] at hr; exact absurd hr.symm hto
            | fatal => rw [ha] at hr; rw [ihA _ _ _ hfne ha]; exact hr
            | ok vs => rw [ha] at hr; rw [ihA _ _ _ (hokne vs) ha]; exact hr
          | Plus =>
            rw [runNode_step_plus] at hr ⊢
            cases ha : runArgs n env rest with
            | timeout => rw [ha] at hr; exact absurd hr.symm hto
            | fatal => rw [ha] at hr; rw [ihA _ _ _ hfne ha]; exact hr
            | ok vs => rw [ha] at hr; rw [ihA _ _ _ (hokne vs) ha]; exact hr
          | Let =>
            cases rest with
            | nil => rw [runNode_step_let_nil] at hr ⊢; exact hr
            | cons b bs =>
              rw [runNode_step_let] at hr ⊢
              by_cases hp : ((b :: bs).dropLast).length % 2 = 0
              · rw [if_pos hp] at hr ⊢
                cases hl : letBind n ([] :: env) ((b :: bs).dropLast) with
                | timeout => rw [hl] at hr; exact absurd hr.symm hto
                | fatal => rw [hl] at hr; rw [ihL _ _ _ hfne hl]; exact hr
                | ok env' =>
                  rw [hl] at hr
                  rw [ihL _ _ _ (hokne env') hl]
                  exact ihN _ _ _ hto hr
              · rw [if_neg hp] at hr ⊢; exact hr
          | Ident s =>
            rw [runNode_step_reduce_ident] at hr ⊢
            exact reduceStep _ rfl hr
          | LitNum m =>
            rw [runNode_step_reduce_litnum] at hr ⊢
            exact reduceStep _ rfl hr
          | LitStr s =>
            rw [runNode_step_reduce_litstr] at hr ⊢
            exact reduceStep _ rfl hr
          | Program ms =>
            rw [runNode_step_reduce_prog] at hr ⊢
            exact reduceStep _ rfl hr
          | Macro =>
            rw [runNode_step_reduce_macro_head] at hr ⊢
            exact reduceStep _ rfl hr
          | S sub =>
            cases sub with
            | nil =>
              rw [runNode_step_reduce_empty] at hr ⊢
              exact reduceStep _ rfl hr
            | cons sh stail =>
              cases hsh : isFn sh with
              | true =>
                have : sh = Node.Fn := by
                  cases sh <;> simp [isFn] at hsh ⊢
                subst this
                cases stail with
                | nil => rw [runNode_step_app_nobody] at hr ⊢; exact hr
                | cons x xs =>
                  rw [runNode_step_app] at hr ⊢
                  cases hm : ((x :: xs).dropLast).mapM expectIdent with
                  | none => rw [hm] at hr; exact hr
                  | some names =>
                    rw [hm] at hr
                    try simp only at hr ⊢
                    cases ha : runArgs n env rest with
                    | timeout => rw [ha] at hr; exact absurd hr.symm hto
                    | fatal =>
                      rw [ha] at hr; rw [ihA _ _ _ hfne ha]; exact hr
                    | ok args' =>
                      rw [ha] at hr
                      rw [ihA _ _ _ (hokne args') ha]
                      try simp only at hr ⊢
                      by_cases hlen : args'.length = names.length
                      · rw [if_pos hlen] at hr ⊢
                        cases hb : bindAll ([] :: env) names args' with
                        | none => rw [hb] at hr; exact hr
                        | some env' =>
                          rw [hb] at hr
                          exact ihN _ _ _ hto hr
                      · rw [if_neg hlen] at hr ⊢; exact hr
              | false =>
                rw [runNode_step_reduce_s n env sh stail rest hsh] at hr
                rw [runNode_step_reduce_s (n + 1) env sh stail rest hsh]
                exact reduceStep _ rfl hr
    · -- runArgs
      intro env es r hto hr
      cases es with
      | nil => rw [runArgs_step_nil] at hr ⊢; exact hr
      | cons e es' =>
        rw [runArgs_step_cons] at hr ⊢
        cases he : runNode n env e with
        | timeout => rw [he] at hr; exact absurd hr.symm hto
        | fatal => rw [he] at hr; rw [ihN _ _ _ hfne he]; exact hr
        | ok v =>
          rw [he] at hr
          rw [ihN _ _ _ (hokne v) he]
          cases ha : runArgs n env es' with
          | timeout => rw [ha] at hr; exact absurd hr.symm hto
          | fatal => rw [ha] at hr; rw [ihA _ _ _ hfne ha]; exact hr
          | ok vs => rw [ha] at hr; rw [ihA _ _ _ (hokne vs) ha]; exact hr
    · -- letBind
      intro env bs r hto hr
      match bs with
      | [] => rw [letBind_step_nil] at hr ⊢; exact hr
      | [b] => rw [letBind_step_one] at hr ⊢; exact hr
      | nameNode :: exprNode :: rest =>
        rw [letBind_step_cons] at hr ⊢
        cases hi : expectIdent nameNode with
        | none =>
          try simp only [hi] at hr ⊢
          exact hr
        | some name =>
          try simp only [hi] at hr ⊢
          cases he : runNode n env exprNode with
          | timeout =>
            try rw [he] at hr
            exact absurd hr.symm hto
          | fatal =>
            try rw [he] at hr
            rw [ihN _ _ _ hfne he]
            exact hr
          | ok v =>
            try rw [he] at hr
            rw [ihN _ _ _ (hokne v) he]
            try simp only at hr ⊢
            cases hs : store env name v with
            | none =>
              try rw [hs] at hr
              exact hr
            | some env' =>
              try rw [hs] at hr
              exact ihL _ _ _ hto hr

/-- A non-timeout interpreter result is stable under any additional
fuel. -/
theorem runNode_mono_le {n m : Nat} {env : Env} {t : Node} {r : Res Node}
    (hnm : n ≤ m) (hto : r ≠ Res.timeout) (hr : runNode n env t = r) :
    runNode m env t = r := by
  induction m with
  | zero =>
    have : n = 0 := Nat.le_zero.mp hnm
    subst this
    exact hr
  | succ m ih =>
    rcases Nat.le_succ_iff.mp hnm with h | h
    · exact (run_mono m).1 _ _ _ hto (ih h)
    · subst h
      exact hr

/-- A fatal evaluation never also evaluates to a value. -/
theorem NFatal_not_NEvals {env : Env} {t v : Node}
    (hf : NFatal env t) : ¬ NEvals env t v := by
  rintro ⟨m, hm⟩
  obtain ⟨n, hn⟩ := hf
  rcases Nat.le_total n m with h | h
  · have := runNode_mono_le h (fun hc => Res.noConfusion hc) hn
    rw [this] at hm
    exact Res.noConfusion hm
  · have := runNode_mono_le h (fun hc => Res.noConfusion hc) hm
    rw [this] at hn
    exact Res.noConfusion hn

-- ------------------------------------------------------------------
-- C1: function application
-- ------------------------------------------------------------------

/-- Binding distinct formals positionally into a freshly pushed rib
produces exactly the rib of parameter/argument pairs (insertion order
reversed, the association list growing at the head). -/
theorem bindAll_ok :
    ∀ (names : List String) (vals : List Node) (rib : Rib) (env : Env),
      names.length = vals.length →
      names.Nodup →
      (∀ x ∈ names, ribLookup rib x = none) →
      bindAll (rib :: env) names vals
        = some (((names.zip vals).reverse ++ rib) :: env) := by
  intro names
  induction names with
  | nil =>
    intro vals rib env hlen _ _
    cases vals with
    | nil => simp [bindAll]
    | cons v vs => simp at hlen
  | cons nm names ih =>
    intro vals rib env hlen hnd hrib
    cases vals with
    | nil => simp at hlen
    | cons v vs =>
      have h1 : ribLookup rib nm = none := hrib nm (by simp)
      have hlen' : names.length = vs.length := by simpa using hlen
      have hnd' : names.Nodup := hnd.of_cons
      have hnm : nm ∉ names := by
        have := List.nodup_cons.mp hnd
        exact this.1
      have hrib' : ∀ x ∈ names, ribLookup ((nm, v) :: rib) x = none := by
        intro x hx
        have hne : nm ≠ x := fun hcon => hnm (hcon ▸ hx)
        simp [ribLookup, hne, hrib x (List.mem_cons_of_mem _ hx)]
      rw [bindAll, store]
      rw [h1]
      try simp only
      rw [ih vs ((nm, v) :: rib) env hlen' hnd' hrib']
      simp [List.zip_cons_cons, List.reverse_cons, List.append_assoc]

/-- C1 counterexample: the claim as stated fails for a function literal
with a duplicate parameter name — `((fn x x 0) 1 2)` has two arguments and
two parameters, but storing the second `x` into the call rib is fatal
(`Envr::store` rejects a name already present in the innermost rib), so
the call does not return the body's value `0`. -/
theorem c1_counterexample :
    NFatal [] (Node.S [Node.S [Node.Fn, Node.Ident ("x"), Node.Ident ("x"),
        Node.LitNum 0], Node.LitNum 1, Node.LitNum 2])
    ∧ ¬ NEvals [] (Node.S [Node.S [Node.Fn, Node.Ident ("x"),
        Node.Ident ("x"), Node.LitNum 0], Node.LitNum 1, Node.LitNum 2])
        (Node.LitNum 0) :=
  ⟨⟨9, rfl⟩, NFatal_not_NEvals ⟨9, rfl⟩⟩

/-- C1 (amended): for an application form whose head is a function literal
`(fn <param>... <body>)` with *pairwise-distinct* parameter names, and as
many argument expressions as parameters, `run_node` evaluates the call
arguments left-to-right in the caller's environment (`runArgs fuel env`),
pushes one new scope, binds each parameter positionally to its evaluated
argument, and returns the evaluation of the body in that scope; an
argument count different from the parameter count is fatal (a duplicate
parameter name is also fatal, per the counterexample).  The spec's
examples: `((fn x (+ x 1)) 42)` yields 43 and `((fn x x) 42 42)` is
fatal. -/
theorem c1_fn_application (fuel : Nat) (env : Env) (x : Node)
    (xs rest : List Node) (names : List String) (args' : List Node) :
    (((x :: xs).dropLast).mapM expectIdent = some names →
      names.Nodup →
      runArgs fuel env rest = Res.ok args' →
      args'.length = names.length →
      runNode (fuel + 1) env (Node.S (Node.S (Node.Fn :: x :: xs) :: rest))
        = runNode fuel ((names.zip args').reverse :: env)
            ((x :: xs).getLast?.getD (Node.S [])))
    ∧ (((x :: xs).dropLast).mapM expectIdent = some names →
      runArgs fuel env rest = Res.ok args' →
      args'.length ≠ names.length →
      runNode (fuel + 1) env (Node.S (Node.S (Node.Fn :: x :: xs) :: rest))
        = Res.fatal)
    ∧ NEvals [] (Node.S [Node.S [Node.Fn, Node.Ident ("x"),
        Node.S [Node.Plus, Node.Ident ("x"), Node.LitNum 1]], Node.LitNum 42])
        (Node.LitNum 43)
    ∧ NFatal [] (Node.S [Node.S [Node.Fn, Node.Ident ("x"), Node.Ident ("x")],
        Node.LitNum 42, Node.LitNum 42]) := by
  refine ⟨?_, ?_, ⟨9, rfl⟩, ⟨9, rfl⟩⟩
  · intro hm hnd ha hlen
    rw [runNode_step_app, hm]
    try simp only
    rw [ha]
    try simp only
    rw [if_pos hlen]
    have hb := bindAll_ok names args' [] env hlen.symm hnd (by intro x _; rfl)
    rw [hb]
    simp
  · intro hm ha hlen
    rw [runNode_step_app, hm]
    try simp only
    rw [ha]
    try simp only
    rw [if_neg hlen]

/-- Witness for C1: the amended theorem applied at
`((fn x (+ x 1)) 42)` — the application steps to evaluating the body
`(+ x 1)` in the one-rib scope binding `x` to 42 — and at the arity
mismatch `((fn x x) 42 42)`. -/
theorem c1_witness :
    runNode 4 [] (Node.S [Node.S [Node.Fn, Node.Ident ("x"),
        Node.S [Node.Plus, Node.Ident ("x"), Node.LitNum 1]], Node.LitNum 42])
      = runNode 3 [[("x", Node.LitNum 42)]]
          (Node.S [Node.Plus, Node.Ident ("x"), Node.LitNum 1])
    ∧ runNode 4 [] (Node.S [Node.S [Node.Fn, Node.Ident ("x"),
        Node.Ident ("x")], Node.LitNum 42, Node.LitNum 42]) = Res.fatal :=
  ⟨(c1_fn_application 3 [] (Node.Ident ("x"))
      [Node.S [Node.Plus, Node.Ident ("x"), Node.LitNum 1]] [Node.LitNum 42]
      ["x"] [Node.LitNum 42]).1 rfl (by simp) rfl rfl,
   (c1_fn_application 3 [] (Node.Ident ("x")) [Node.Ident ("x")]
      [Node.LitNum 42, Node.LitNum 42] ["x"]
      [Node.LitNum 42, Node.LitNum 42]).2.1 rfl rfl (by simp)⟩

-- ------------------------------------------------------------------
-- C2: let binding
-- ------------------------------------------------------------------

/-- C2 counterexample: the claim as stated fails when a `let` re-binds a
name it has already bound — `(let x 1 x 2 0)` has an even count of nodes
before the body, but storing the second `x` into the same rib is fatal, so
the body `0` is never reached. -/
theorem c2_counterexample :
    NFatal [] (Node.S [Node.Let, Node.Ident ("x"), Node.LitNum 1,
        Node.Ident ("x"), Node.LitNum 2, Node.LitNum 0])
    ∧ ¬ NEvals [] (Node.S [Node.Let, Node.Ident ("x"), Node.LitNum 1,
        Node.Ident ("x"), Node.LitNum 2, Node.LitNum 0]) (Node.LitNum 0) :=
  ⟨⟨9, rfl⟩, NFatal_not_NEvals ⟨9, rfl⟩⟩

/-- C2 (amended): a `let` form with an even count of nodes between `let`
and the body pushes one scope and binds each name to the value of its
expression in declaration order — the binding loop `letBind` threads the
extended environment through each later expression, so a later binding's
expression sees the earlier ones and a binding's own expression does not
see its own name, and re-binding a name already bound by the same `let` is
fatal (per the counterexample).  `(let x 3 y (+ x 1) (+ x y))` yields 7,
`(let x (+ x 0) x)` in the empty environment is fatal, and an odd count of
nodes before the body is fatal. -/
theorem c2_let_sequential (fuel : Nat) (env env' : Env) (b : Node)
    (bs : List Node) :
    (((b :: bs).dropLast).length % 2 = 0 →
      letBind fuel ([] :: env) ((b :: bs).dropLast) = Res.ok env' →
      runNode (fuel + 1) env (Node.S (Node.Let :: b :: bs))
        = runNode fuel env' ((b :: bs).getLast?.getD (Node.S [])))
    ∧ (((b :: bs).dropLast).length % 2 ≠ 0 →
      runNode (fuel + 1) env (Node.S (Node.Let :: b :: bs)) = Res.fatal)
    ∧ NEvals [] (Node.S [Node.Let, Node.Ident ("x"), Node.LitNum 3,
        Node.Ident ("y"), Node.S [Node.Plus, Node.Ident ("x"), Node.LitNum 1],
        Node.S [Node.Plus, Node.Ident ("x"), Node.Ident ("y")]])
        (Node.LitNum 7)
    ∧ NFatal [] (Node.S [Node.Let, Node.Ident ("x"),
        Node.S [Node.Plus, Node.Ident ("x"), Node.LitNum 0],
        Node.Ident ("x")]) := by
  refine ⟨?_, ?_, ⟨9, rfl⟩, ⟨9, rfl⟩⟩
  · intro hp hl
    rw [runNode_step_let, if_pos hp, hl]
  · intro hp
    rw [runNode_step_let, if_neg hp]

/-- Witness for C2: the amended theorem applied at
`(let x 3 (+ x x))` (the binding loop finishes with `x` bound to 3, and
the form steps to evaluating the body under that rib) and at the odd
form `(let x 0)`. -/
theorem c2_witness :
    runNode 4 [] (Node.S [Node.Let, Node.Ident ("x"), Node.LitNum 3,
        Node.S [Node.Plus, Node.Ident ("x"), Node.Ident ("x")]])
      = runNode 3 [[("x", Node.LitNum 3)]]
          (Node.S [Node.Plus, Node.Ident ("x"), Node.Ident ("x")])
    ∧ runNode 4 [] (Node.S [Node.Let, Node.Ident ("x"), Node.LitNum 0])
      = Res.fatal :=
  ⟨(c2_let_sequential 3 [] [[("x", Node.LitNum 3)]] (Node.Ident ("x"))
      [Node.LitNum 3,
        Node.S [Node.Plus, Node.Ident ("x"), Node.Ident ("x")]]).1
      rfl rfl,
   (c2_let_sequential 3 [] [] (Node.Ident ("x")) [Node.LitNum 0]).2.1
      (by simp)⟩

-- ------------------------------------------------------------------
-- C6: addition
-- ------------------------------------------------------------------

/-- The fold `args.iter().fold(0, |a, n| a + n.expect_lit_num())` over a
list of number literals yields the running total, as long as no partial
sum reaches `2^32`. -/
theorem sumNums_ok :
    ∀ (ms : List Nat) (acc : Nat), acc + ms.sum < 4294967296 →
      sumNums acc (ms.map Node.LitNum) = some (acc + ms.sum) := by
  intro ms
  induction ms with
  | nil => intro acc h; simp [sumNums]
  | cons m ms ih =>
    intro acc h
    rw [List.map_cons, sumNums, expectLitNum]
    try simp only
    have hlt : acc + m < 4294967296 := by
      have := List.sum_cons (a := m) (l := ms)
      omega
    rw [if_pos hlt]
    have := ih (acc + m) (by have := List.sum_cons (a := m) (l := ms); omega)
    rw [this]
    have : acc + m + ms.sum = acc + (m :: ms).sum := by
      rw [List.sum_cons]; omega
    rw [this]

/-- An overflowing sum of number literals is fatal (the `u32` addition
panics at the first addition leaving the 32-bit range). -/
theorem sumNums_overflow :
    ∀ (ms : List Nat) (acc : Nat), acc < 4294967296 →
      4294967296 ≤ acc + ms.sum →
      sumNums acc (ms.map Node.LitNum) = none := by
  intro ms
  induction ms with
  | nil => intro acc hacc h; simp [List.sum_nil] at h; omega
  | cons m ms ih =>
    intro acc hacc h
    rw [List.map_cons, sumNums, expectLitNum]
    try simp only
    by_cases hlt : acc + m < 4294967296
    · rw [if_pos hlt]
      exact ih (acc + m) hlt
        (by have := List.sum_cons (a := m) (l := ms); omega)
    · rw [if_neg hlt]

/-- A non-numeric element anywhere in the argument values makes the fold
fatal. -/
theorem sumNums_bad :
    ∀ (vals : List Node) (acc : Nat) (v : Node), v ∈ vals →
      expectLitNum v = none → sumNums acc vals = none := by
  intro vals
  induction vals with
  | nil => intro acc v hv _; exact absurd hv (List.not_mem_nil _)
  | cons u us ih =>
    intro acc v hv hb
    rw [sumNums]
    cases hu : expectLitNum u with
    | none => rfl
    | some m =>
      try simp only
      rcases List.mem_cons.mp hv with h | h
      · rw [← h] at hu; rw [hu] at hb; cases hb
      · by_cases hlt : acc + m < 4294967296
        · rw [if_pos hlt]; exact ih (acc + m) v h hb
        · rw [if_neg hlt]

/-- C6 counterexample: the claim as stated fails on a sum that overflows
the 32-bit range — `(+ 4294967295 1)` (both literals lexable as `u32`)
does not evaluate to the number literal 4294967296; the `u32` addition is
a fatal overflow. -/
theorem c6_counterexample :
    NFatal [] (Node.S [Node.Plus, Node.LitNum 4294967295, Node.LitNum 1])
    ∧ ¬ NEvals [] (Node.S [Node.Plus, Node.LitNum 4294967295, Node.LitNum 1])
        (Node.LitNum 4294967296) :=
  ⟨⟨9, rfl⟩, NFatal_not_NEvals ⟨9, rfl⟩⟩

/-- C6 (amended): `(+ <arg>...)` evaluates its arguments left to right
(`runArgs`) and returns the number literal holding their sum, provided
every argument evaluates to a number literal and the sum stays below
`2^32`; zero arguments yield numeric 0 (`(+)` → 0, `(+ 3 1 1 1)` → 6); an
argument evaluating to a non-number is fatal; a sum reaching `2^32` is a
fatal `u32` overflow (per the counterexample). -/
theorem c6_plus_sums (fuel : Nat) (env : Env) (args : List Node)
    (ms : List Nat) (vals : List Node) (v : Node) :
    (runArgs fuel env args = Res.ok (ms.map Node.LitNum) →
      ms.sum < 4294967296 →
      runNode (fuel + 1) env (Node.S (Node.Plus :: args))
        = Res.ok (Node.LitNum ms.sum))
    ∧ (runArgs fuel env args = Res.ok vals → v ∈ vals →
      expectLitNum v = none →
      runNode (fuel + 1) env (Node.S (Node.Plus :: args)) = Res.fatal)
    ∧ (runArgs fuel env args = Res.ok (ms.map Node.LitNum) →
      4294967296 ≤ ms.sum →
      runNode (fuel + 1) env (Node.S (Node.Plus :: args)) = Res.fatal)
    ∧ NEvals [] (Node.S [Node.Plus]) (Node.LitNum 0)
    ∧ NEvals [] (Node.S [Node.Plus, Node.LitNum 3, Node.LitNum 1,
        Node.LitNum 1, Node.LitNum 1]) (Node.LitNum 6) := by
  refine ⟨?_, ?_, ?_, ⟨9, rfl⟩, ⟨9, rfl⟩⟩
  · intro ha hs
    rw [runNode_step_plus, ha]
    try simp only
    rw [sumNums_ok ms 0 (by omega)]
    simp
  · intro ha hv hb
    rw [runNode_step_plus, ha]
    try simp only
    rw [sumNums_bad vals 0 v hv hb]
  · intro ha hs
    rw [runNode_step_plus, ha]
    try simp only
    rw [sumNums_overflow ms 0 (by omega) (by omega)]

/-- Witness for C6: the amended theorem applied at `(+ 3 1 1 1)` (sum in
range), at `(+ 3 ())` (non-numeric argument), and at the overflowing
`(+ 4294967295 1)`. -/
theorem c6_witness :
    runNode 9 [] (Node.S [Node.Plus, Node.LitNum 3, Node.LitNum 1,
        Node.LitNum 1, Node.LitNum 1]) = Res.ok (Node.LitNum 6)
    ∧ runNode 9 [] (Node.S [Node.Plus, Node.LitNum 3, Node.S []])
      = Res.fatal
    ∧ runNode 9 [] (Node.S [Node.Plus, Node.LitNum 4294967295, Node.LitNum 1])
      = Res.fatal := by
  refine ⟨?_, ?_, ?_⟩
  · have := (c6_plus_sums 8 []
      [Node.LitNum 3, Node.LitNum 1, Node.LitNum 1, Node.LitNum 1]
      [3, 1, 1, 1] [] (Node.S [])).1 rfl (by norm_num)
    simpa using this
  · exact (c6_plus_sums 8 [] [Node.LitNum 3, Node.S []] []
      [Node.LitNum 3, Node.S []] (Node.S [])).2.1 rfl (by simp) rfl
  · exact (c6_plus_sums 8 [] [Node.LitNum 4294967295, Node.LitNum 1]
      [4294967295, 1] [] (Node.S [])).2.2.1 rfl (by norm_num)

-- ------------------------------------------------------------------
-- C8: program entries are independent
-- ------------------------------------------------------------------

/-- C8: `run_program` gives every top-level entry a brand-new, initially
empty environment and collects the results in entry order; consequently,
when the program evaluates, the result at position `i` is exactly the
result of evaluating the one-entry program holding entry `i` alone, so
changing other entries cannot change it. -/
theorem c8_program_entry_independence :
    ∀ (fuel : Nat) (ns vs : List Node),
      runProgram fuel (Node.Program ns) = Res.ok vs →
      vs.length = ns.length
      ∧ ∀ (i : Nat) (n v : Node), ns.get? i = some n → vs.get? i = some v →
          runProgram fuel (Node.Program [n]) = Res.ok [v] := by
  intro fuel ns
  induction ns with
  | nil =>
    intro vs h
    have hvs : vs = [] := (Res.ok.inj h).symm
    exact ⟨by simp [hvs], by intro i n v hn _; simp at hn⟩
  | cons e es ih =>
    intro vs h
    rw [runProgram, runEntries] at h
    cases he : runNode fuel [] e with
    | timeout => rw [he] at h; cases h
    | fatal => rw [he] at h; cases h
    | ok v₀ =>
      rw [he] at h
      cases hes : runEntries fuel es with
      | timeout => rw [hes] at h; cases h
      | fatal => rw [hes] at h; cases h
      | ok vs' =>
        rw [hes] at h
        have hvs : vs = v₀ :: vs' := by
          have := Res.ok.inj h
          exact this.symm
        subst hvs
        have ih' := ih vs' (by rw [runProgram]; exact hes)
        refine ⟨by simpa using ih'.1, ?_⟩
        intro i n v hn hv
        cases i with
        | zero =>
          have hn' : e = n := by simpa using hn
          have hv' : v₀ = v := by simpa using hv
          subst hn'; subst hv'
          rw [runProgram, runEntries, he, runEntries]
        | succ j =>
          exact ih'.2 j n v (by simpa using hn) (by simpa using hv)

/-- Witness for C8: the two-entry program `42 (+ 1 2)` evaluates to
`[42, 3]`, and each entry evaluated alone gives the same value. -/
theorem c8_witness :
    ([Node.LitNum 42, Node.LitNum 3] : List Node).length
      = ([Node.LitNum 42, Node.S [Node.Plus, Node.LitNum 1, Node.LitNum 2]]
          : List Node).length
    ∧ runProgram 9 (Node.Program [Node.S [Node.Plus, Node.LitNum 1,
        Node.LitNum 2]]) = Res.ok [Node.LitNum 3] := by
  have h := c8_program_entry_independence 9
    [Node.LitNum 42, Node.S [Node.Plus, Node.LitNum 1, Node.LitNum 2]]
    [Node.LitNum 42, Node.LitNum 3] rfl
  exact ⟨h.1, h.2 1 (Node.S [Node.Plus, Node.LitNum 1, Node.LitNum 2])
    (Node.LitNum 3) rfl rfl⟩

-- ------------------------------------------------------------------
-- C5: macro definition and invocation
-- ------------------------------------------------------------------

/-- C5: during expansion a macro-definition form
`(macro <name> <param>... <body>)` records the mapping from the name to
its ordered parameter identifiers and raw body in the macro table and
itself expands to the empty form; an identifier-headed form whose head
names a registered macro and whose argument count equals the parameter
count is replaced by the macro body with every occurrence of each
parameter identifier replaced by the corresponding raw argument tree
(`subst`, modelled from the spec since `Node::subst` is not under `src/`),
and an argument-count mismatch is fatal. -/
theorem c5_macro_define_and_invoke (tbl : Table) (name : String)
    (psNodes args : List Node) (psNames : List String) (body : Node)
    (ps : List String) :
    (psNodes.mapM expectIdent = some psNames →
      foldU tbl (Node.S (Node.Macro :: Node.Ident name :: psNodes ++ [body]))
        = some (Node.S [], (name, (psNames, body)) :: tbl))
    ∧ (tblLookup tbl name = some (ps, body) →
      args.length = ps.length →
      foldU tbl (Node.S (Node.Ident name :: args))
        = some (subst body ps args, tbl))
    ∧ (tblLookup tbl name = some (ps, body) →
      args.length ≠ ps.length →
      foldU tbl (Node.S (Node.Ident name :: args)) = none) := by
  refine ⟨?_, ?_, ?_⟩
  · intro hps
    show foldMacroU tbl
      (Node.Macro :: Node.Ident name :: psNodes ++ [body]) = _
    rw [foldMacroU]
    have hget : (Node.Macro :: Node.Ident name :: psNodes ++ [body]).get? 1
        = some (Node.Ident name) := by simp
    rw [hget]
    try simp only
    rw [expectIdent]
    try simp only
    have heq : Node.Macro :: Node.Ident name :: psNodes ++ [body]
        = (Node.Macro :: Node.Ident name :: psNodes) ++ [body] := by simp
    rw [heq, List.getLast?_concat, List.dropLast_concat]
    try simp only
    have hdrop : (Node.Macro :: Node.Ident name :: psNodes).drop 2
        = psNodes := rfl
    rw [hdrop, hps]
  · intro hl hlen
    show foldIdentU tbl (Node.Ident name :: args) = _
    rw [foldIdentU, hl]
    try simp only
    rw [if_pos hlen]
  · intro hl hlen
    show foldIdentU tbl (Node.Ident name :: args) = _
    rw [foldIdentU, hl]
    try simp only
    rw [if_neg hlen]

/-- Witness for C5: defining `(macro m x (+ x 1))` records
`m ↦ ([x], (+ x 1))` and expands to the empty form; invoking `(m 41)`
substitutes the raw argument for `x` in the body; `(m)` is an arity
mismatch and fatal. -/
theorem c5_witness :
    foldU [] (Node.S [Node.Macro, Node.Ident ("m"), Node.Ident ("x"),
        Node.S [Node.Plus, Node.Ident ("x"), Node.LitNum 1]])
      = some (Node.S [], [("m", (["x"],
          Node.S [Node.Plus, Node.Ident ("x"), Node.LitNum 1]))])
    ∧ foldU [("m", (["x"], Node.S [Node.Plus, Node.Ident ("x"),
        Node.LitNum 1]))] (Node.S [Node.Ident ("m"), Node.LitNum 41])
      = some (subst (Node.S [Node.Plus, Node.Ident ("x"), Node.LitNum 1])
          ["x"] [Node.LitNum 41],
        [("m", (["x"], Node.S [Node.Plus, Node.Ident ("x"), Node.LitNum 1]))])
    ∧ foldU [("m", (["x"], Node.S [Node.Plus, Node.Ident ("x"),
        Node.LitNum 1]))] (Node.S [Node.Ident ("m")]) = none :=
  ⟨(c5_macro_define_and_invoke [] "m" [Node.Ident ("x")] [] ["x"]
      (Node.S [Node.Plus, Node.Ident ("x"), Node.LitNum 1]) ["x"]).1 rfl,
   (c5_macro_define_and_invoke
      [("m", (["x"], Node.S [Node.Plus, Node.Ident ("x"), Node.LitNum 1]))]
      "m" [] [Node.LitNum 41] []
      (Node.S [Node.Plus, Node.Ident ("x"), Node.LitNum 1]) ["x"]).2.1
      rfl rfl,
   (c5_macro_define_and_invoke
      [("m", (["x"], Node.S [Node.Plus, Node.Ident ("x"), Node.LitNum 1]))]
      "m" [] [] [] (Node.S [Node.Plus, Node.Ident ("x"), Node.LitNum 1])
      ["x"]).2.2 rfl (by simp)⟩

-- ------------------------------------------------------------------
-- C4: pretty-print / re-parse round trip.  Infrastructure: how `lexGo`
-- consumes a rendered atom, digit rendering facts, and how `parseLoop`
-- consumes a rendered token sequence.
-- ------------------------------------------------------------------

theorem takeWhile_append_all (p : Char → Bool) :
    ∀ (l1 l2 : List Char), (∀ c ∈ l1, p c = true) →
      (∀ c cs, l2 = c :: cs → p c = false) →
      (l1 ++ l2).takeWhile p = l1 ∧ (l1 ++ l2).dropWhile p = l2 := by
  intro l1
  induction l1 with
  | nil =>
    intro l2 _ h2
    cases l2 with
    | nil => simp
    | cons c cs =>
      simp [List.takeWhile_cons, List.dropWhile_cons, h2 c cs rfl]
  | cons a l1 ih =>
    intro l2 h1 h2
    have ha : p a = true := h1 a (by simp)
    have ih' := ih l2 (fun c hc => h1 c (by simp [hc])) h2
    simp [List.takeWhile_cons, List.dropWhile_cons, ha, ih'.1, ih'.2]

theorem digitChar_facts :
    ∀ d : Nat, d < 10 →
      stopChar (Nat.digitChar d) = false
      ∧ (Nat.digitChar d).isDigit = true
      ∧ digitVal (Nat.digitChar d) = d := by
  intro d hd
  interval_cases d <;> exact ⟨by decide, by decide, by decide⟩

theorem foldl_digits (f : Nat → Char → Nat)
    (hf : f = fun a c => 10 * a + digitVal c) :
    ∀ (ds : List Nat), (∀ d ∈ ds, d < 10) → ∀ acc : Nat,
      List.foldl f acc ((ds.map Nat.digitChar).reverse)
        = acc * 10 ^ ds.length + Nat.ofDigits 10 ds := by
  intro ds
  induction ds with
  | nil => intro _ acc; simp [Nat.ofDigits]
  | cons d ds ih =>
    intro hlt acc
    have hd : d < 10 := hlt d (by simp)
    have hds : ∀ e ∈ ds, e < 10 := fun e he => hlt e (by simp [he])
    rw [List.map_cons, List.reverse_cons, List.foldl_append,
      ih hds acc]
    have hdg := (digitChar_facts d hd).2.2
    simp only [List.foldl_cons, List.foldl_nil, hf, hdg]
    rw [Nat.ofDigits_cons]
    simp only [List.length_cons, pow_succ]
    ring

theorem parseDigits_numChars (n : Nat) : parseDigits (numChars n) = n := by
  by_cases h0 : n = 0
  · subst h0; rfl
  · rw [numChars, if_neg h0, parseDigits]
    rw [foldl_digits _ rfl (Nat.digits 10 n)
      (fun d hd => Nat.digits_lt_base (by norm_num) hd) 0]
    simp [Nat.ofDigits_digits]

theorem numChars_spec (n : Nat) :
    numChars n ≠ []
    ∧ (∀ c ∈ numChars n, c.isDigit = true ∧ stopChar c = false) := by
  constructor
  · by_cases h0 : n = 0
    · subst h0; simp [numChars]
    · rw [numChars, if_neg h0]
      simp [Nat.digits_ne_nil_iff_ne_zero, h0]
  · intro c hc
    by_cases h0 : n = 0
    · subst h0
      simp [numChars] at hc
      subst hc
      exact ⟨by decide, by decide⟩
    · rw [numChars, if_neg h0] at hc
      simp only [List.mem_reverse, List.mem_map] at hc
      obtain ⟨d, hd, hdc⟩ := hc
      have hlt : d < 10 := Nat.digits_lt_base (by norm_num) hd
      have := digitChar_facts d hlt
      exact ⟨hdc ▸ this.2.1, hdc ▸ this.1⟩

theorem lexLoop_space (cs : List Char) :
    lexLoop (' ' :: cs) = lexLoop cs := by
  show lexGo (cs.length + 1) (' ' :: cs) = lexLoop cs
  rw [lexGo]
  rw [if_pos (by decide)]
  exact lexGo_fuel cs.length cs (le_refl _)

theorem lexLoop_bra (cs : List Char) :
    lexLoop ('(' :: cs) = (lexLoop cs).map (fun ts => Token.Bra :: ts) := by
  show lexGo (cs.length + 1) ('(' :: cs) = _
  rw [lexGo]
  rw [if_neg (by decide), if_pos (by decide)]
  rw [lexGo_fuel cs.length cs (le_refl _)]

theorem lexLoop_ket (cs : List Char) :
    lexLoop (')' :: cs) = (lexLoop cs).map (fun ts => Token.Ket :: ts) := by
  show lexGo (cs.length + 1) (')' :: cs) = _
  rw [lexGo]
  rw [if_neg (by decide), if_neg (by decide), if_pos (by decide)]
  rw [lexGo_fuel cs.length cs (le_refl _)]

/-- Lexing a rendered name or keyword atom followed by a separator:
exactly the atom's characters are consumed and classified through the
keyword table. -/
theorem lexLoop_atom (c : Char) (crest rest : List Char)
    (hc : stopChar c = false) (hd : c.isDigit = false)
    (hcrest : ∀ d ∈ crest, stopChar d = false) (hsep : atomSep rest) :
    lexLoop ((c :: crest) ++ rest)
      = (lexLoop rest).map (fun ts =>
          (if KEYWORDS.contains (String.mk (c :: crest)) then
            Token.Keyword (String.mk (c :: crest))
          else Token.Name (String.mk (c :: crest))) :: ts) := by
  have hsplit := takeWhile_append_all (fun d => !stopChar d) crest rest
    (fun d hdm => by simp [hcrest d hdm])
    (by
      intro r rs hrr
      rw [hrr] at hsep
      simp only [atomSep] at hsep
      rcases hsep with h | h <;> subst h <;> decide)
  have hw : c.isWhitespace = false := by
    rw [stopChar] at hc
    simp only [Bool.or_eq_false_iff] at hc
    exact hc.1.1.1
  have hbra : (c = '(') = False := by
    rw [stopChar] at hc
    simp only [Bool.or_eq_false_iff] at hc
    simpa using hc.1.1.2
  have hket : (c = ')') = False := by
    rw [stopChar] at hc
    simp only [Bool.or_eq_false_iff] at hc
    simpa using hc.1.2
  have hquo : (c = '"') = False := by
    rw [stopChar] at hc
    simp only [Bool.or_eq_false_iff] at hc
    simpa using hc.2
  show lexGo ((c :: crest ++ rest).length) ((c :: crest) ++ rest) = _
  rw [List.cons_append, List.length_cons, lexGo]
  rw [if_neg (by simp [hw]), if_neg (by simp [hbra]), if_neg (by simp [hket]),
    if_neg (by simp [hquo]), if_neg (by simp [hd])]
  rw [hsplit.1, hsplit.2]
  rw [lexGo_fuel _ rest (by simp [List.length_append]; try omega)]

/-- Lexing a rendered number followed by a separator yields its `Number`
token (decimal digits re-parse to the same value, which fits in `u32`). -/
theorem lexLoop_number (n : Nat) (rest : List Char)
    (hn : n < 4294967296) (hsep : atomSep rest) :
    lexLoop (numChars n ++ rest)
      = (lexLoop rest).map (fun ts => Token.Number n :: ts) := by
  obtain ⟨hne, hdig⟩ := numChars_spec n
  cases hnum : numChars n with
  | nil => exact absurd hnum hne
  | cons c crest =>
    have hc : c.isDigit = true ∧ stopChar c = false := by
      have := hdig c (by rw [hnum]; simp)
      exact ⟨this.1, this.2⟩
    have hcrest : ∀ d ∈ crest, Char.isDigit d = true := by
      intro d hdm
      exact (hdig d (by rw [hnum]; simp [hdm])).1
    have hsplit := takeWhile_append_all Char.isDigit crest rest
      (fun d hdm => hcrest d hdm)
      (by
        intro r rs hrr
        rw [hrr] at hsep
        simp only [atomSep] at hsep
        rcases hsep with h | h <;> subst h <;> decide)
    have hw : c.isWhitespace = false := by
      rw [stopChar] at hc
      have := hc.2
      simp only [Bool.or_eq_false_iff] at this
      exact this.1.1.1
    have hbra : (c = '(') = False := by
      have := hc.2
      rw [stopChar] at this
      simp only [Bool.or_eq_false_iff] at this
      simpa using this.1.1.2
    have hket : (c = ')') = False := by
      have := hc.2
      rw [stopChar] at this
      simp only [Bool.or_eq_false_iff] at this
      simpa using this.1.2
    have hquo : (c = '"') = False := by
      have := hc.2
      rw [stopChar] at this
      simp only [Bool.or_eq_false_iff] at this
      simpa using this.2
    show lexGo ((c :: crest ++ rest).length) (c :: crest ++ rest) = _
    rw [List.cons_append, List.length_cons, lexGo]
    rw [if_neg (by simp [hw]), if_neg (by simp [hbra]),
      if_neg (by simp [hket]), if_neg (by simp [hquo]), if_pos hc.1]
    rw [hsplit.1, hsplit.2]
    have hval : parseDigits (c :: crest) = n := by
      rw [← hnum]; exact parseDigits_numChars n
    try simp only
    rw [hval, if_pos hn]
    rw [lexGo_fuel _ rest (by simp [List.length_append]; try omega)]

theorem lexLoop_atom_tok (c : Char) (crest rest : List Char) (tok : Token)
    (hc : stopChar c = false) (hd : c.isDigit = false)
    (hcrest : ∀ d ∈ crest, stopChar d = false) (hsep : atomSep rest)
    (htok : (if KEYWORDS.contains (String.mk (c :: crest)) then
        Token.Keyword (String.mk (c :: crest))
      else Token.Name (String.mk (c :: crest))) = tok) :
    lexLoop ((c :: crest) ++ rest)
      = (lexLoop rest).map (fun ts => tok :: ts) := by
  rw [lexLoop_atom c crest rest hc hd hcrest hsep, htok]

mutual
/-- Re-lexing the pretty-printed form of a quote-free well-formed
expression, followed by a separator, yields its canonical tokens followed
by the lexing of the remainder. -/
theorem lex_pretty_node :
    ∀ t : Node, exprWf t = true → strFree t = true →
      ∀ rest : List Char, atomSep rest →
        lexLoop (prettyN t ++ rest)
          = (lexLoop rest).map (fun out => toksN t ++ out)
  | Node.Program ns => by
    intro h
    simp [exprWf] at h
  | Node.Macro => by
    intro h
    simp [exprWf] at h
  | Node.LitStr s => by
    intro _ h
    simp [strFree] at h
  | Node.Plus => by
    intro _ _ rest hsep
    have h := lexLoop_atom_tok '+' [] rest (Token.Keyword ("+"))
      (by decide) (by decide) (by simp) hsep (by decide)
    show lexLoop (['+'] ++ rest) = _
    rw [h]
    cases lexLoop rest <;> simp [toksN]
  | Node.Fn => by
    intro _ _ rest hsep
    have h := lexLoop_atom_tok 'f' ['n'] rest (Token.Keyword ("fn"))
      (by decide) (by decide) (by decide) hsep (by decide)
    show lexLoop (['f', 'n'] ++ rest) = _
    rw [show (['f', 'n'] : List Char) ++ rest = ('f' :: ['n']) ++ rest
      from rfl, h]
    cases lexLoop rest <;> simp [toksN]
  | Node.Let => by
    intro _ _ rest hsep
    have h := lexLoop_atom_tok 'l' ['e', 't'] rest (Token.Keyword ("let"))
      (by decide) (by decide) (by decide) hsep (by decide)
    show lexLoop (['l', 'e', 't'] ++ rest) = _
    rw [show (['l', 'e', 't'] : List Char) ++ rest
      = ('l' :: ['e', 't']) ++ rest from rfl, h]
    cases lexLoop rest <;> simp [toksN]
  | Node.Print => by
    intro _ _ rest hsep
    have h := lexLoop_atom_tok 'p' ['r', 'i', 'n', 't'] rest
      (Token.Keyword ("print"))
      (by decide) (by decide) (by decide) hsep (by decide)
    show lexLoop (['p', 'r', 'i', 'n', 't'] ++ rest) = _
    rw [show (['p', 'r', 'i', 'n', 't'] : List Char) ++ rest
      = ('p' :: ['r', 'i', 'n', 't']) ++ rest from rfl, h]
    cases lexLoop rest <;> simp [toksN]
  | Node.Ident s => by
    intro hwf _ rest hsep
    rw [exprWf, validName] at hwf
    cases hl : s.toList with
    | nil => rw [hl] at hwf; cases hwf
    | cons c cs =>
      rw [hl] at hwf
      simp only [Bool.and_eq_true, Bool.not_eq_true'] at hwf
      obtain ⟨⟨⟨hcd, hcs⟩, hall⟩, hkw⟩ := hwf
      have hmk : String.mk (c :: cs) = s := by
        rw [← hl]
        rfl
      have h := lexLoop_atom_tok c cs rest (Token.Name s) hcs hcd
        (by
          intro d hd
          have := List.all_eq_true.mp hall d hd
          simpa using this) hsep
        (by
          rw [hmk]
          rw [if_neg (show ¬ (KEYWORDS.contains s = true) from by
            rw [hkw]; simp)])
      show lexLoop (s.toList ++ rest) = _
      rw [hl, h]
      cases lexLoop rest <;> simp [toksN]
  | Node.LitNum m => by
    intro hwf _ rest hsep
    rw [exprWf] at hwf
    have hm : m < 4294967296 := of_decide_eq_true hwf
    have h := lexLoop_number m rest hm hsep
    show lexLoop (numChars m ++ rest) = _
    rw [h]
    cases lexLoop rest <;> simp [toksN]
  | Node.S ns => by
    intro hwf hsf rest hsep
    rw [exprWf] at hwf
    rw [strFree] at hsf
    show lexLoop (('(' :: (prettyL ns ++ [')'])) ++ rest) = _
    rw [List.cons_append, lexLoop_bra]
    rw [show (prettyL ns ++ [')']) ++ rest = prettyL ns ++ (')' :: rest)
      from by simp]
    rw [lex_pretty_list ns hwf hsf (')' :: rest) (Or.inr rfl)]
    rw [lexLoop_ket]
    cases lexLoop rest <;> simp [toksN]

/-- The list version of `lex_pretty_node`: children are rendered separated
by single spaces. -/
theorem lex_pretty_list :
    ∀ ns : List Node, exprWfL ns = true → strFreeL ns = true →
      ∀ rest : List Char, atomSep rest →
        lexLoop (prettyL ns ++ rest)
          = (lexLoop rest).map (fun out => toksL ns ++ out)
  | [] => by
    intro _ _ rest _
    show lexLoop ([] ++ rest) = _
    cases h : lexLoop rest <;> simp [toksL, h]
  | [n] => by
    intro hwf hsf rest hsep
    rw [exprWfL] at hwf
    rw [strFreeL] at hsf
    simp only [Bool.and_eq_true] at hwf hsf
    show lexLoop (prettyN n ++ rest) = _
    rw [lex_pretty_node n hwf.1 hsf.1 rest hsep]
    cases lexLoop rest <;> simp [toksL, toksN]
  | n :: m :: ns => by
    intro hwf hsf rest hsep
    rw [exprWfL] at hwf
    rw [strFreeL] at hsf
    simp only [Bool.and_eq_true] at hwf hsf
    show lexLoop ((prettyN n ++ (' ' :: prettyL (m :: ns))) ++ rest) = _
    rw [show (prettyN n ++ (' ' :: prettyL (m :: ns))) ++ rest
      = prettyN n ++ (' ' :: (prettyL (m :: ns) ++ rest)) from by simp]
    rw [lex_pretty_node n hwf.1 hsf.1 (' ' :: (prettyL (m :: ns) ++ rest))
      (Or.inl rfl)]
    rw [lexLoop_space]
    rw [lex_pretty_list (m :: ns) hwf.2 hsf.2 rest hsep]
    cases lexLoop rest <;> simp [toksL]
end

theorem pushAll_s : ∀ (ns acc : List Node),
    pushAll (Node.S acc) ns = some (Node.S (acc ++ ns)) := by
  intro ns
  induction ns with
  | nil => intro acc; simp [pushAll]
  | cons n ns ih =>
    intro acc
    rw [pushAll, pushNode]
    simp only [Option.some_bind]
    rw [ih (acc ++ [n])]
    simp

theorem pushAll_prog : ∀ (ns acc : List Node),
    pushAll (Node.Program acc) ns = some (Node.Program (acc ++ ns)) := by
  intro ns
  induction ns with
  | nil => intro acc; simp [pushAll]
  | cons n ns ih =>
    intro acc
    rw [pushAll, pushNode]
    simp only [Option.some_bind]
    rw [ih (acc ++ [n])]
    simp

mutual
/-- Feeding the canonical tokens of a well-formed expression to the parser
loop pushes exactly that expression onto the current node. -/
theorem parse_toks_node :
    ∀ t : Node, exprWf t = true →
      ∀ (ts : List Token) (stack : List Node) (cur cur' : Node),
        pushNode cur t = some cur' →
        parseLoop (toksN t ++ ts) stack cur = parseLoop ts stack cur'
  | Node.Program ns => by
    intro h
    simp [exprWf] at h
  | Node.Macro => by
    intro h
    simp [exprWf] at h
  | Node.Plus => by
    intro _ ts stack cur cur' hpush
    show parseLoop (Token.Keyword ("+") :: ts) stack cur = _
    rw [parseLoop.eq_def]
    simp only
    rw [if_pos trivial, hpush]
    simp
  | Node.Fn => by
    intro _ ts stack cur cur' hpush
    show parseLoop (Token.Keyword ("fn") :: ts) stack cur = _
    rw [parseLoop.eq_def]
    simp only
    rw [if_pos trivial, hpush]
    simp
  | Node.Let => by
    intro _ ts stack cur cur' hpush
    show parseLoop (Token.Keyword ("let") :: ts) stack cur = _
    rw [parseLoop.eq_def]
    simp only
    rw [if_pos trivial, hpush]
    simp
  | Node.Print => by
    intro _ ts stack cur cur' hpush
    show parseLoop (Token.Keyword ("print") :: ts) stack cur = _
    rw [parseLoop.eq_def]
    simp only
    rw [if_pos trivial, hpush]
    simp
  | Node.Ident s => by
    intro _ ts stack cur cur' hpush
    show parseLoop (Token.Name s :: ts) stack cur = _
    rw [parseLoop.eq_def]
    simp only
    rw [hpush]
    simp
  | Node.LitNum m => by
    intro _ ts stack cur cur' hpush
    show parseLoop (Token.Number m :: ts) stack cur = _
    rw [parseLoop.eq_def]
    simp only
    rw [hpush]
    simp
  | Node.LitStr s => by
    intro _ ts stack cur cur' hpush
    show parseLoop (Token.Str s :: ts) stack cur = _
    rw [parseLoop.eq_def]
    simp only
    rw [hpush]
    simp
  | Node.S ns => by
    intro hwf ts stack cur cur' hpush
    rw [exprWf] at hwf
    show parseLoop ((Token.Bra :: (toksL ns ++ [Token.Ket])) ++ ts)
      stack cur = _
    rw [List.cons_append, parseLoop.eq_def]
    simp only
    rw [show (toksL ns ++ [Token.Ket]) ++ ts = toksL ns ++ (Token.Ket :: ts)
      from by simp]
    rw [parse_toks_list ns hwf (Token.Ket :: ts) (cur :: stack) (Node.S [])
      (Node.S ns) (by rw [pushAll_s]; simp)]
    rw [parseLoop.eq_def]
    simp only
    rw [hpush]
    simp

/-- The list version of `parse_toks_node`. -/
theorem parse_toks_list :
    ∀ ns : List Node, exprWfL ns = true →
      ∀ (ts : List Token) (stack : List Node) (cur cur' : Node),
        pushAll cur ns = some cur' →
        parseLoop (toksL ns ++ ts) stack cur = parseLoop ts stack cur'
  | [] => by
    intro _ ts stack cur cur' hpush
    rw [pushAll] at hpush
    have hc : cur = cur' := Option.some.inj hpush
    subst hc
    simp [toksL]
  | n :: ns => by
    intro hwf ts stack cur cur' hpush
    rw [exprWfL] at hwf
    simp only [Bool.and_eq_true] at hwf
    rw [pushAll, Option.bind_eq_some] at hpush
    obtain ⟨c1, hc1, hrest⟩ := hpush
    show parseLoop ((toksN n ++ toksL ns) ++ ts) stack cur = _
    rw [show (toksN n ++ toksL ns) ++ ts = toksN n ++ (toksL ns ++ ts)
      from by simp]
    rw [parse_toks_node n hwf.1 (toksL ns ++ ts) stack cur c1 hc1]
    exact parse_toks_list ns hwf.2 ts stack c1 cur' hrest
end

/-- Parsing the canonical tokens of a list of well-formed expressions
yields the `Program` of exactly those expressions. -/
theorem parse_toksL (ns : List Node) (hwf : exprWfL ns = true) :
    parse (toksL ns) = some (Node.Program ns) := by
  have h := parse_toks_list ns hwf [] [] (Node.Program [])
    (Node.Program ns) (by rw [pushAll_prog]; simp)
  rw [List.append_nil] at h
  rw [parse, h]
  rfl

/-- Every token produced by the lexer is re-lexable: names are valid bare
names (non-empty, no stop characters, no leading digit, not keywords) and
numbers fit in `u32`. -/
theorem lexGo_good :
    ∀ (fuel : Nat) (cs : List Char) (ts : List Token),
      lexGo fuel cs = some ts → ∀ tok ∈ ts, tokGood tok = true := by
  intro fuel
  induction fuel with
  | zero =>
    intro cs ts h tok htok
    cases cs with
    | nil =>
      have : ts = [] := (Option.some.inj h).symm
      subst this
      exact absurd htok (List.not_mem_nil _)
    | cons c cs' => cases h
  | succ n ih =>
    intro cs ts h tok htok
    cases cs with
    | nil =>
      have : ts = [] := (Option.some.inj h).symm
      subst this
      exact absurd htok (List.not_mem_nil _)
    | cons c cs' =>
      rw [lexGo] at h
      by_cases hw : c.isWhitespace
      · rw [if_pos hw] at h
        exact ih cs' ts h tok htok
      · rw [if_neg hw] at h
        by_cases hb : c = '('
        · rw [if_pos hb] at h
          rw [Option.map_eq_some'] at h
          obtain ⟨ts', hts', hts⟩ := h
          subst hts
          rcases List.mem_cons.mp htok with rfl | hmem
          · rfl
          · exact ih cs' ts' hts' tok hmem
        · rw [if_neg hb] at h
          by_cases hk : c = ')'
          · rw [if_pos hk] at h
            rw [Option.map_eq_some'] at h
            obtain ⟨ts', hts', hts⟩ := h
            subst hts
            rcases List.mem_cons.mp htok with rfl | hmem
            · rfl
            · exact ih _ ts' hts' tok hmem
          · rw [if_neg hk] at h
            by_cases hq : c = '"'
            · rw [if_pos hq] at h
              rw [Option.map_eq_some'] at h
              obtain ⟨ts', hts', hts⟩ := h
              subst hts
              rcases List.mem_cons.mp htok with rfl | hmem
              · rfl
              · exact ih _ ts' hts' tok hmem
            · rw [if_neg hq] at h
              by_cases hd : c.isDigit
              · rw [if_pos hd] at h
                try simp only at h
                by_cases h32 :
                    parseDigits (c :: cs'.takeWhile Char.isDigit)
                      < 4294967296
                · rw [if_pos h32] at h
                  rw [Option.map_eq_some'] at h
                  obtain ⟨ts', hts', hts⟩ := h
                  subst hts
                  rcases List.mem_cons.mp htok with rfl | hmem
                  · exact decide_eq_true h32
                  · exact ih _ ts' hts' tok hmem
                · rw [if_neg h32] at h
                  cases h
              · rw [if_neg hd] at h
                try simp only at h
                rw [Option.map_eq_some'] at h
                obtain ⟨ts', hts', hts⟩ := h
                subst hts
                rcases List.mem_cons.mp htok with rfl | hmem
                · by_cases hkw : KEYWORDS.contains
                      (String.mk (c :: cs'.takeWhile (fun d => !stopChar d)))
                  · rw [if_pos hkw]
                    rfl
                  · rw [if_neg hkw, tokGood]
                    have hstop : stopChar c = false := by
                      simp [stopChar, hw, hb, hk, hq]
                    have hall : (cs'.takeWhile (fun d => !stopChar d)).all
                        (fun d => !stopChar d) = true := by
                      rw [List.all_eq_true]
                      intro d hdm
                      have h2 := List.mem_takeWhile_imp hdm
                      exact h2
                    show (!c.isDigit && !stopChar c
                      && (cs'.takeWhile (fun d => !stopChar d)).all
                          (fun d => !stopChar d)
                      && !(KEYWORDS.contains
                          (String.mk (c :: cs'.takeWhile
                            (fun d => !stopChar d))))) = true
                    have hd' : c.isDigit = false := Bool.eq_false_iff.mpr hd
                    have hkw' : KEYWORDS.contains
                        (String.mk (c :: cs'.takeWhile
                          (fun d => !stopChar d))) = false :=
                      Bool.eq_false_iff.mpr hkw
                    simp only [Bool.and_eq_true, Bool.not_eq_true']
                    exact ⟨⟨⟨hd', hstop⟩, hall⟩, hkw'⟩
                · exact ih _ ts' hts' tok hmem

theorem exprWfL_append :
    ∀ (l : List Node) (x : Node),
      exprWfL (l ++ [x]) = (exprWfL l && exprWf x) := by
  intro l x
  induction l with
  | nil => simp [exprWfL]
  | cons a l ih =>
    rw [List.cons_append, exprWfL, ih, exprWfL]
    simp [Bool.and_assoc]

/-- `Node::push` of a well-formed expression preserves the parser
accumulator invariant. -/
theorem pushNode_wf (cur x cur' : Node) (hcur : accWf cur = true)
    (hx : exprWf x = true) (hp : pushNode cur x = some cur') :
    accWf cur' = true := by
  cases cur with
  | Program cs =>
    have : cur' = Node.Program (cs ++ [x]) :=
      (Option.some.inj (by simpa [pushNode] using hp)).symm
    subst this
    rw [accWf] at hcur ⊢
    rw [exprWfL_append, hcur, hx]
    rfl
  | S cs =>
    have : cur' = Node.S (cs ++ [x]) :=
      (Option.some.inj (by simpa [pushNode] using hp)).symm
    subst this
    rw [accWf] at hcur ⊢
    rw [exprWfL_append, hcur, hx]
    rfl
  | Plus => simp [accWf] at hcur
  | Fn => simp [accWf] at hcur
  | Let => simp [accWf] at hcur
  | Print => simp [accWf] at hcur
  | Macro => simp [accWf] at hcur
  | Ident s => simp [accWf] at hcur
  | LitNum m => simp [accWf] at hcur
  | LitStr s => simp [accWf] at hcur

/-- A successful parse of good tokens returns a `Program` of well-formed
expressions. -/
theorem parseLoop_wf :
    ∀ (toks : List Token), (∀ tok ∈ toks, tokGood tok = true) →
      ∀ (stack : List Node) (cur : Node) (t : Node),
        (∀ s ∈ stack, accWf s = true) → accWf cur = true →
        parseLoop toks stack cur = some t →
        ∃ ns, t = Node.Program ns ∧ exprWfL ns = true := by
  intro toks
  induction toks with
  | nil =>
    intro _ stack cur t _ hcur h
    rw [parseLoop.eq_def] at h
    try simp only at h
    repeat' split at h
    all_goals try cases h
    rw [accWf] at hcur
    exact ⟨_, rfl, hcur⟩
  | cons tok ts ih =>
    intro htoks stack cur t hstack hcur h
    have htoks' : ∀ tok ∈ ts, tokGood tok = true :=
      fun tok htok => htoks tok (List.mem_cons_of_mem _ htok)
    cases tok
    case Bra =>
      exact ih htoks' (cur :: stack) (Node.S []) t
        (by
          intro s hs
          rcases List.mem_cons.mp hs with rfl | hmem
          · exact hcur
          · exact hstack s hmem)
        rfl h
    case Ket =>
      cases cur
      case S ns =>
        cases stack with
        | nil =>
          rw [parseLoop.eq_def] at h
          try simp only at h
          cases h
        | cons p₀ rest =>
          rw [parseLoop.eq_def] at h
          try simp only at h
          rw [Option.bind_eq_some] at h
          obtain ⟨p', hp, h⟩ := h
          have hp₀ : accWf p₀ = true := hstack p₀ (by simp)
          have hS : exprWf (Node.S ns) = true := by
            rw [accWf] at hcur
            rw [exprWf]
            exact hcur
          exact ih htoks' rest p' t
            (fun s hs => hstack s (by simp [hs]))
            (pushNode_wf p₀ (Node.S ns) p' hp₀ hS hp) h
      all_goals
        rw [parseLoop.eq_def] at h
        try simp only at h
        cases h
    case Keyword k =>
      rw [parseLoop.eq_def] at h
      try simp only at h
      repeat' split at h
      all_goals try cases h
      all_goals
        rw [Option.bind_eq_some] at h
        obtain ⟨c, hc, h⟩ := h
        refine ih htoks' stack c t hstack
          (pushNode_wf cur _ c hcur ?_ hc) h
        decide
    case Name s =>
      rw [parseLoop.eq_def] at h
      try simp only at h
      rw [Option.bind_eq_some] at h
      obtain ⟨c, hc, h⟩ := h
      have hgood : exprWf (Node.Ident s) = true :=
        htoks (Token.Name s) (by simp)
      exact ih htoks' stack c t hstack
        (pushNode_wf cur _ c hcur hgood hc) h
    case Number m =>
      rw [parseLoop.eq_def] at h
      try simp only at h
      rw [Option.bind_eq_some] at h
      obtain ⟨c, hc, h⟩ := h
      have hgood : exprWf (Node.LitNum m) = true :=
        htoks (Token.Number m) (by simp)
      exact ih htoks' stack c t hstack
        (pushNode_wf cur _ c hcur hgood hc) h
    case Str s =>
      rw [parseLoop.eq_def] at h
      try simp only at h
      rw [Option.bind_eq_some] at h
      obtain ⟨c, hc, h⟩ := h
      exact ih htoks' stack c t hstack
        (pushNode_wf cur (Node.LitStr s) c hcur rfl hc) h

/-- C4 counterexample: the round-trip claim fails on string literals —
`"foo"` builds to a one-string-literal program, but the pretty printer
drops the quotes, so the re-parsed tree holds an identifier instead of the
string literal. -/
theorem c4_counterexample :
    parseText ("\"foo\"") = some (Node.Program [Node.LitStr ("foo")])
    ∧ (lexLoop (prettyN (Node.Program [Node.LitStr ("foo")]))).bind parse
      = some (Node.Program [Node.Ident ("foo")])
    ∧ Node.Program [Node.Ident ("foo")]
      ≠ Node.Program [Node.LitStr ("foo")] := by
  refine ⟨rfl, rfl, ?_⟩
  intro hcon
  injection hcon with h1
  injection h1 with h2 h3
  exact Node.noConfusion h2

/-- C4 (amended): for every source text that tokenizes and builds into a
tree containing no string-literal node, re-tokenizing and re-building the
pretty-printed output yields a tree structurally equal to the original
(byte-equality of the texts is not required).  A tree with a string
literal may round-trip to a different tree, because `Display` prints
string literals without their quotes (per the counterexample). -/
theorem c4_pretty_roundtrip :
    ∀ (text : String) (toks : List Token) (t : Node),
      lex text = some toks → parse toks = some t → strFree t = true →
      (lexLoop (prettyN t)).bind parse = some t := by
  intro text toks t hlex hparse hsf
  have hgood : ∀ tok ∈ toks, tokGood tok = true := lexGo_good _ _ _ hlex
  obtain ⟨ns, ht, hwf⟩ := parseLoop_wf toks hgood [] (Node.Program []) t
    (by simp) rfl hparse
  subst ht
  have hsf' : strFreeL ns = true := by
    rw [strFree] at hsf
    exact hsf
  have hlexp := lex_pretty_list ns hwf hsf' [] trivial
  rw [List.append_nil] at hlexp
  show (lexLoop (prettyL ns)).bind parse = _
  rw [hlexp]
  show ((some ([] : List Token)).map (fun out => toksL ns ++ out)).bind parse
    = _
  rw [Option.map_some', Option.some_bind, List.append_nil]
  exact parse_toksL ns hwf

/-- Witness for C4: the text `(+ 1 2)` builds, is string-free, and
re-parsing its pretty-printed form gives back the same tree. -/
theorem c4_witness :
    (lexLoop (prettyN (Node.Program [Node.S [Node.Plus, Node.LitNum 1,
        Node.LitNum 2]]))).bind parse
      = some (Node.Program [Node.S [Node.Plus, Node.LitNum 1,
          Node.LitNum 2]]) :=
  c4_pretty_roundtrip ("(+ 1 2)")
    [Token.Bra, Token.Keyword ("+"), Token.Number 1, Token.Number 2,
      Token.Ket]
    (Node.Program [Node.S [Node.Plus, Node.LitNum 1, Node.LitNum 2]])
    rfl rfl rfl

end Slang
